import Mathlib

/-!
# Binomial-tree gather (`gather_binomial.hpp`)

A shallow embedding of `gather<tree_binomial, BlockingPolicy, Serialization>`.

* Integers are naturals: during a call every rank stays below `rank_n` and the
  mask is a power of two, so the widths of `std::int64_t` and `std::size_t` play no
  role in what is proved here.
* A serialized buffer is the sequence of values streamed into the archive.
* The group is a map from locality id to the state of the gather object living
  there.  One round has four steps: every locality runs the role test and a sender
  issues its `hpx::async`; the remote callbacks land; every receiver runs its wait
  loop; the barrier is passed.  Every send carries the accumulator its sender held when
  the round began.  A receiver whose flag is not set once the deliveries of the round
  have landed never leaves its loop, never reaches the barrier, and the group hangs:
  the round then has no successor state.
* Every locality caches its own buffer (lines 74-86) before the first delivery reaches it.
* Fields marked "ghost" are not program state: they log what the call did.
-/

namespace Gather

/-- A serialized buffer: the values written through `operator<<`, in order. -/
abbrev Envelope := List Int

/-- State of the gather object at one locality, with a log of its actions. -/
structure Locality where
  /-- Member `mask` -/
  mask : Nat
  /-- The flag `std::get<0>(*args)` -/
  flag : Int
  /-- The vector `std::get<1>(*args)` -/
  args : List Envelope
  /-- Ghost: loop iterations executed -/
  iterations : Nat
  /-- Ghost: `(i, parent)` for every `hpx::async` issued -/
  sends : List (Nat × Nat)
  /-- Ghost: rounds `i` in which the receive loop was entered -/
  waits : List Nat
  /-- Ghost: number of `b.wait()` calls -/
  barriers : Nat
  /-- Ghost: `(out_pos, value)` for every store through `out_beg` -/
  writes : List (Int × Int)

/-- A pending `hpx::async(parent, ..., args, std::get<1>(*args))`. -/
structure Message where
  /-- The locality the callback runs on -/
  parent : Nat
  /-- The copy of the sender's vector passed by value -/
  data_ : List Envelope
deriving DecidableEq

/-- The group: locality id to object state. -/
abbrev World := Nat → Locality

/-- The constructor: `mask(0x1)` and `std::make_tuple(0, std::vector<std::string>{})`. -/
def construct : Locality :=
  { mask := 1, flag := 0, args := [], iterations := 0, sends := [], waits := [], barriers := 0,
    writes := [] }

/-- Every locality holds a freshly constructed object. -/
def fresh : World := fun _ => construct

/-- Truncated binary logarithm by repeated halving; the first argument bounds the recursion. -/
def log2Floor : Nat → Nat → Nat
  | 0, _ => 0
  | fuel + 1, n => if n < 2 then 0 else log2Floor fuel (n / 2) + 1

/-- The local `logp`: `static_cast<int64_t>(std::log2(static_cast<double>(rank_n)))`, with the
conversion to `double` and `std::log2` taken as exact. -/
def logp (rank_n : Nat) : Nat := log2Floor rank_n rank_n

/-- The local `rank_me`: `(hpx::get_locality_id() + root) % rank_n`. -/
def rank_me (rank_n root locality : Nat) : Nat := (locality + root) % rank_n

/-- The expression `x & (~m)` on naturals: the bits of `x` that are not bits of `m`. -/
def andNot (x m : Nat) : Nat := x ^^^ (x &&& m)

/-- The local `parent`: `((rank_me & (~mask)) + root) % rank_n`. -/
def parent (rank_n root rankMe mask : Nat) : Nat := (andNot rankMe mask + root) % rank_n

/-- The buffer built by `value_oa << rank_me << iter_diff` followed by every input element. -/
def frame (rankMe : Nat) (input : List Int) : Envelope :=
  (rankMe : Int) :: (input.length : Int) :: input

/-- Lines 74-86: cache the local data set into the transmission buffer. -/
def cache (rank_n root locality : Nat) (input : List Int) (l : Locality) : Locality :=
  if rank_me rank_n root locality ≠ root then
    { l with args := l.args ++ [frame (rank_me rank_n root locality) input] }
  else l

/-- Modelled from the spec: `atomic_xchange` is declared outside these sources.  The spec
has a receiver block until its partner's merge has been delivered and applied, the flag being
flipped by an atomic exchange on delivery and on receipt.  Accordingly
`atomic_xchange(cell, expected, desired)` is a compare-and-swap: when the cell holds
`expected` it stores `desired` and reports success, otherwise it changes nothing and reports
failure.  The result is the new content of the cell and the report.  (Were the last two
arguments taken the other way round, a receiver would walk through a clear flag without
waiting for its partner, against that description.) -/
def atomic_xchange (cell expected desired : Int) : Int × Bool :=
  if cell = expected then (desired, true) else (cell, false)

/-- Lines 89-109 up to the hand-over: the role test of iteration `i` at one locality.  A sender
issues a message; a receiver is logged as entering the loop of line 93, which `receive`
runs. -/
def exchange (rank_n root locality i : Nat) (l : Locality) : Locality × Option Message :=
  if l.mask &&& rank_me rank_n root locality = 0 then
    if rank_me rank_n root locality ||| l.mask < rank_n then
      ({ l with waits := l.waits ++ [i] }, none)
    else (l, none)
  else
    ({ l with sends := l.sends ++ [(i, parent rank_n root (rank_me rank_n root locality) l.mask)] },
      some ⟨parent rank_n root (rank_me rank_n root locality) l.mask, l.args⟩)

/-- Lines 111-120: `mask <<= 1` and the barrier closing the iteration. -/
def advance (l : Locality) : Locality :=
  { l with mask := l.mask <<< 1, iterations := l.iterations + 1, barriers := l.barriers + 1 }

/-- Lines 103-107: the callback appends `data_` to the vector of the locality it runs on and
calls `atomic_xchange(&flag, 0, 1)`. -/
def deliver (w : World) (m : Message) : World :=
  Function.update w m.parent
    { w m.parent with
      args := (w m.parent).args ++ m.data_,
      flag := (atomic_xchange (w m.parent).flag 0 1).1 }

/-- The messages issued in iteration `i`, by sender id. -/
def outbox (rank_n root i : Nat) (w : World) : List Message :=
  (List.range rank_n).filterMap (fun id => (exchange rank_n root id i (w id)).2)

/-- The group in iteration `i` once every locality has run its role test and every callback
has landed. -/
def landed (rank_n root i : Nat) (w : World) : World :=
  (outbox rank_n root i w).foldl deliver
    (fun id => if id < rank_n then (exchange rank_n root id i (w id)).1 else w id)

/-- Line 93, `while(!atomic_xchange(&flag, 1, 0)) {}`, run by a receiver once the deliveries of
the round have landed: with the flag set the exchange succeeds and the loop is left with the
flag reset; otherwise no later exchange can succeed before the barrier and the loop is never
left (`none`).  Localities in another role pass through. -/
def receive (rank_n root locality : Nat) (l : Locality) : Option Locality :=
  if l.mask &&& rank_me rank_n root locality = 0 ∧
      rank_me rank_n root locality ||| l.mask < rank_n then
    if (atomic_xchange l.flag 1 0).2 then some { l with flag := (atomic_xchange l.flag 1 0).1 }
    else none
  else some l

/-- One iteration of the loop of lines 88-121 across the group: `none` when some receiver never
leaves its wait loop, so that the barrier is never passed. -/
def round (rank_n root i : Nat) (w : World) : Option World :=
  if (List.range rank_n).all
      (fun id => (receive rank_n root id (landed rank_n root i w id)).isSome) then
    some (fun id =>
      if id < rank_n then
        match receive rank_n root id (landed rank_n root i w id) with
        | some l => advance l
        | none => landed rank_n root i w id
      else landed rank_n root i w id)
  else none

/-- Iterations `0, 1, ..., k-1` of the loop, in that order; `none` when one of them hangs. -/
def loop (rank_n root : Nat) : Nat → World → Option World
  | 0, w => some w
  | k + 1, w => (loop rank_n root k w).bind (round rank_n root k)

/-- Lines 132-135: `count` runs from its current value for `n` more steps, each reading one
value from the archive into `out_beg + out_pos`; an exhausted archive aborts. -/
def readBlock (in_rank in_count : Int) : Nat → Int → List Int → Option (List (Int × Int))
  | 0, _, _ => some []
  | _ + 1, _, [] => none
  | n + 1, count, v :: iarch =>
    (readBlock in_rank in_count n (count + 1) iarch).map
      (fun ws => (in_rank * in_count + count, v) :: ws)

/-- Lines 125-135 for one `recv_str`: read `in_rank` and `in_count`, then the block. -/
def decode (recv_str : Envelope) : Option (List (Int × Int)) :=
  match recv_str with
  | in_rank :: in_count :: iarch => readBlock in_rank in_count in_count.toNat 0 iarch
  | _ => none

/-- Line 124: the loop over the vector, collecting the stores of every buffer. -/
def drain : List Envelope → Option (List (Int × Int))
  | [] => some []
  | recv_str :: rest =>
    match decode recv_str, drain rest with
    | some ws, some ws' => some (ws ++ ws')
    | _, _ => none

/-- Lines 123-137: when `rank_me < 1`, drain the vector into the output; an aborted read
leaves no result. -/
def finalize (rank_n root locality : Nat) (l : Locality) : Option Locality :=
  if rank_me rank_n root locality < 1 then
    (drain l.args).map (fun ws => { l with writes := l.writes ++ ws })
  else some l

/-- Lines 139-142: the extra barrier taken when `is_blocking<BlockingPolicy>()` holds. -/
def closing (blocking : Bool) (l : Locality) : Locality :=
  if blocking then { l with barriers := l.barriers + 1 } else l

/-- Lines 123-142: finalization followed by the barrier of the blocking policy. -/
def finish (blocking : Bool) (rank_n root locality : Nat) (l : Locality) : Option Locality :=
  (finalize rank_n root locality l).map (closing blocking)

/-- The group once every locality has run lines 74-86 on its own input. -/
def cached (rank_n root : Nat) (input : Nat → List Int) (w : World) : World :=
  fun id => if id < rank_n then cache rank_n root id (input id) (w id) else w id

/-- The group after caching and all `logp` iterations of one call; `none` when the group hangs
in one of them. -/
def afterRounds (rank_n root : Nat) (input : Nat → List Int) (w : World) : Option World :=
  loop rank_n root (logp rank_n) (cached rank_n root input w)

/-- One call `operator()(input_beg, input_end, out_beg)` seen from `locality`: the state it
returns with, or `none` when it does not return (the group hangs in the round loop, or
deserialization aborts). -/
def call (blocking : Bool) (rank_n root : Nat) (input : Nat → List Int) (w : World)
    (locality : Nat) : Option Locality :=
  (afterRounds rank_n root input w).bind (fun w' => finish blocking rank_n root locality (w' locality))

/-- Memory behind `out_beg` after the logged stores, applied oldest first. -/
def store (ws : List (Int × Int)) (out : Int → Int) : Int → Int :=
  ws.foldl (fun o pv => Function.update o pv.1 pv.2) out

/-- The block layout: element `i` of the input of rotated rank `k` goes to position
`k * L + i`, where `L` is the length of that input. -/
def layout (k : Nat) (es : List Int) : List (Int × Int) :=
  es.enum.map (fun q => ((k : Int) * (es.length : Int) + (q.1 : Int), q.2))

/-- The stores of a call that returned; none when it did not return. -/
def writesOf (r : Option Locality) : List (Int × Int) :=
  match r with
  | some l => l.writes
  | none => []

/-- The group once one call has returned at every locality of the group: each keeps the
object state its call returned with. -/
def returned (blocking : Bool) (rank_n root : Nat) (input : Nat → List Int) (w : World) :
    Option World :=
  (afterRounds rank_n root input w).bind (fun w' =>
    if (List.range rank_n).all (fun id => (finish blocking rank_n root id (w' id)).isSome) then
      some (fun id =>
        if id < rank_n then
          match finish blocking rank_n root id (w' id) with
          | some l => l
          | none => w' id
        else w' id)
    else none)

/-- The group at the start of call number `c`, counted from 0, on objects constructed once;
`none` when an earlier call did not return. -/
def replay (blocking : Bool) (rank_n root : Nat) (input : Nat → List Int) : Nat → Option World
  | 0 => some fresh
  | c + 1 => (replay blocking rank_n root input c).bind (returned blocking rank_n root input)

/-! ## Serialization round trip -/

theorem readBlock_enumFrom (in_rank in_count c0 : Int) (es : List Int) :
    ∀ n : Nat, readBlock in_rank in_count es.length (c0 + n) es =
      some ((es.enumFrom n).map (fun p => (in_rank * in_count + (c0 + (p.1 : Int)), p.2))) := by
  induction es with
  | nil => intro n; rfl
  | cons e es ih =>
    intro n
    have h := ih (n + 1)
    simp only [List.length_cons, readBlock, List.enumFrom_cons, List.map_cons]
    rw [show c0 + (n : Int) + 1 = c0 + ((n + 1 : Nat) : Int) by push_cast; ring, h]
    rfl

theorem decode_frame_eq (k : Nat) (es : List Int) :
    decode (frame k es) =
      some (es.enum.map (fun p => ((k : Int) * (es.length : Int) + (p.1 : Int), p.2))) := by
  have h := readBlock_enumFrom (k : Int) (es.length : Int) 0 es 0
  simp only [Nat.cast_zero, add_zero, zero_add] at h
  simp only [decode, frame, Int.toNat_ofNat, List.enum]
  exact h

/-! ## What one round changes -/

theorem exchange_fst_mask (N root id i : Nat) (l : Locality) :
    (exchange N root id i l).1.mask = l.mask := by
  unfold exchange; split_ifs <;> rfl

theorem exchange_fst_flag (N root id i : Nat) (l : Locality) :
    (exchange N root id i l).1.flag = l.flag := by
  unfold exchange; split_ifs <;> rfl

theorem exchange_fst_args (N root id i : Nat) (l : Locality) :
    (exchange N root id i l).1.args = l.args := by
  unfold exchange; split_ifs <;> rfl

theorem exchange_fst_iterations (N root id i : Nat) (l : Locality) :
    (exchange N root id i l).1.iterations = l.iterations := by
  unfold exchange; split_ifs <;> rfl

theorem exchange_fst_barriers (N root id i : Nat) (l : Locality) :
    (exchange N root id i l).1.barriers = l.barriers := by
  unfold exchange; split_ifs <;> rfl

theorem exchange_fst_writes (N root id i : Nat) (l : Locality) :
    (exchange N root id i l).1.writes = l.writes := by
  unfold exchange; split_ifs <;> rfl

theorem exchange_snd (N root id i : Nat) (l : Locality) :
    (exchange N root id i l).2 =
      if l.mask &&& rank_me N root id = 0 then none
      else some ⟨parent N root (rank_me N root id) l.mask, l.args⟩ := by
  unfold exchange; split_ifs <;> rfl

theorem exchange_fst_sends (N root id i : Nat) (l : Locality) :
    (exchange N root id i l).1.sends =
      l.sends ++ (if l.mask &&& rank_me N root id = 0 then []
        else [(i, parent N root (rank_me N root id) l.mask)]) := by
  unfold exchange; split_ifs <;> simp

theorem exchange_fst_waits (N root id i : Nat) (l : Locality) :
    (exchange N root id i l).1.waits =
      l.waits ++ (if l.mask &&& rank_me N root id = 0 ∧ rank_me N root id ||| l.mask < N
        then [i] else []) := by
  unfold exchange; split_ifs <;> simp_all

/-- Delivery leaves alone whatever depends neither on the vector nor on the flag. -/
theorem foldl_deliver_proj {α : Type} (f : Locality → α)
    (hf : ∀ (l : Locality) (a : List Envelope) (b : Int), f { l with args := a, flag := b } = f l)
    (msgs : List Message) : ∀ (w : World) (t : Nat), f (msgs.foldl deliver w t) = f (w t) := by
  induction msgs with
  | nil => intro w t; rfl
  | cons m ms ih =>
    intro w t
    rw [List.foldl_cons, ih]
    unfold deliver
    by_cases h : t = m.parent
    · subst h; rw [Function.update_same, hf]
    · rw [Function.update_noteq h]

/-- Delivery appends, in outbox order, the payloads addressed to `t`. -/
theorem foldl_deliver_args (msgs : List Message) : ∀ (w : World) (t : Nat),
    (msgs.foldl deliver w t).args =
      (w t).args ++ msgs.flatMap (fun m => if m.parent = t then m.data_ else []) := by
  induction msgs with
  | nil => intro w t; simp
  | cons m ms ih =>
    intro w t
    rw [List.foldl_cons, ih, List.flatMap_cons, ← List.append_assoc]
    congr 1
    unfold deliver
    by_cases h : t = m.parent
    · subst h; simp
    · rw [Function.update_noteq h, if_neg (fun h' => h h'.symm), List.append_nil]

/-- A clear flag stays clear exactly when no callback runs on the locality; a callback sets
it. -/
theorem foldl_deliver_flag (msgs : List Message) : ∀ (w : World) (t : Nat), (w t).flag = 0 →
    (msgs.foldl deliver w t).flag = if ∃ m ∈ msgs, m.parent = t then 1 else 0 := by
  have key : ∀ (ms : List Message) (w : World) (t : Nat), (w t).flag = 1 →
      (ms.foldl deliver w t).flag = 1 := by
    intro ms
    induction ms with
    | nil => intro w t h; exact h
    | cons m ms ih =>
      intro w t h
      rw [List.foldl_cons]
      apply ih
      unfold deliver
      by_cases ht : t = m.parent
      · subst ht
        rw [Function.update_same]
        simp [atomic_xchange, h]
      · rw [Function.update_noteq ht]; exact h
  induction msgs with
  | nil => intro w t h; simpa using h
  | cons m ms ih =>
    intro w t h
    rw [List.foldl_cons]
    by_cases ht : m.parent = t
    · have h1 : (deliver w m t).flag = 1 := by
        unfold deliver
        subst ht
        rw [Function.update_same]
        simp [atomic_xchange, h]
      rw [key ms _ t h1, if_pos ⟨m, List.mem_cons_self _ _, ht⟩]
    · have h0 : (deliver w m t).flag = 0 := by
        unfold deliver
        rw [Function.update_noteq (fun h' => ht h'.symm)]
        exact h
      rw [ih _ t h0]
      have : (∃ m', m' ∈ m :: ms ∧ m'.parent = t) ↔ ∃ m', m' ∈ ms ∧ m'.parent = t := by
        constructor
        · rintro ⟨m', hm', hp⟩
          rcases List.mem_cons.mp hm' with h' | h'
          · subst h'; exact absurd hp ht
          · exact ⟨m', h', hp⟩
        · rintro ⟨m', hm', hp⟩
          exact ⟨m', List.mem_cons_of_mem _ hm', hp⟩
      simp only [this]

theorem landed_proj {α : Type} (f : Locality → α)
    (hf : ∀ (l : Locality) (a : List Envelope) (b : Int), f { l with args := a, flag := b } = f l)
    (N root i : Nat) (w : World) (id : Nat) (hid : id < N) :
    f (landed N root i w id) = f (exchange N root id i (w id)).1 := by
  unfold landed
  rw [foldl_deliver_proj f hf, if_pos hid]

theorem landed_args (N root i : Nat) (w : World) (t : Nat) :
    (landed N root i w t).args =
      (w t).args ++ (outbox N root i w).flatMap (fun m => if m.parent = t then m.data_ else []) := by
  unfold landed
  rw [foldl_deliver_args]
  congr 1
  split_ifs
  · exact exchange_fst_args _ _ _ _ _
  · rfl

theorem landed_flag (N root i : Nat) (w : World) (t : Nat) (h : (w t).flag = 0) :
    (landed N root i w t).flag = if ∃ m ∈ outbox N root i w, m.parent = t then 1 else 0 := by
  unfold landed
  apply foldl_deliver_flag
  split_ifs
  · rw [exchange_fst_flag]; exact h
  · exact h

theorem mem_outbox (N root i : Nat) (w : World) (m : Message) :
    m ∈ outbox N root i w ↔
      ∃ s, s < N ∧ (w s).mask &&& rank_me N root s ≠ 0 ∧
        m = ⟨parent N root (rank_me N root s) (w s).mask, (w s).args⟩ := by
  unfold outbox
  rw [List.mem_filterMap]
  constructor
  · rintro ⟨s, hs, hm⟩
    rw [exchange_snd] at hm
    split_ifs at hm with h
    exact ⟨s, List.mem_range.mp hs, h, (Option.some.inj hm).symm⟩
  · rintro ⟨s, hs, h, rfl⟩
    exact ⟨s, List.mem_range.mpr hs, by rw [exchange_snd, if_neg h]⟩

/-- The wait loop changes the flag only. -/
theorem receive_some (N root id : Nat) (l l' : Locality) (h : receive N root id l = some l') :
    ∃ b : Int, l' = { l with flag := b } := by
  unfold receive at h
  split_ifs at h
  · exact ⟨_, (Option.some.inj h).symm⟩
  · exact ⟨l.flag, (Option.some.inj h).symm⟩

/-- A locality in another role keeps its flag. -/
theorem receive_other (N root id : Nat) (l l' : Locality) (h : receive N root id l = some l')
    (hw : ¬ (l.mask &&& rank_me N root id = 0 ∧ rank_me N root id ||| l.mask < N)) :
    l' = l := by
  unfold receive at h
  rw [if_neg hw] at h
  exact (Option.some.inj h).symm

/-- A receiver whose flag is set leaves its wait loop with the flag reset. -/
theorem receive_set (N root id : Nat) (l : Locality)
    (hw : l.mask &&& rank_me N root id = 0 ∧ rank_me N root id ||| l.mask < N)
    (hf : l.flag = 1) : receive N root id l = some { l with flag := 0 } := by
  unfold receive
  rw [if_pos hw]
  simp [atomic_xchange, hf]

/-- A receiver whose flag is not set never leaves its wait loop. -/
theorem receive_stuck (N root id : Nat) (l : Locality)
    (hw : l.mask &&& rank_me N root id = 0 ∧ rank_me N root id ||| l.mask < N)
    (hf : l.flag ≠ 1) : receive N root id l = none := by
  unfold receive
  rw [if_pos hw]
  simp [atomic_xchange, hf]

/-- A locality that is not a receiver passes through. -/
theorem receive_pass (N root id : Nat) (l : Locality)
    (hw : ¬ (l.mask &&& rank_me N root id = 0 ∧ rank_me N root id ||| l.mask < N)) :
    receive N root id l = some l := by
  unfold receive
  rw [if_neg hw]

/-- A round that is passed: every locality of the group left `receive` and then advanced. -/
theorem round_some (N root i : Nat) (w w' : World) (h : round N root i w = some w') :
    ∀ id, id < N →
      ∃ l, receive N root id (landed N root i w id) = some l ∧ w' id = advance l := by
  unfold round at h
  split_ifs at h with hall
  have hw' := (Option.some.inj h).symm
  intro id hid
  rw [List.all_eq_true] at hall
  have hs := hall id (List.mem_range.mpr hid)
  rw [Option.isSome_iff_exists] at hs
  obtain ⟨l, hl⟩ := hs
  refine ⟨l, hl, ?_⟩
  rw [hw']
  simp only [if_pos hid, hl]

theorem round_some_outside (N root i : Nat) (w w' : World) (h : round N root i w = some w')
    (id : Nat) (hid : N ≤ id) : w' id = landed N root i w id := by
  unfold round at h
  split_ifs at h with hall
  rw [← Option.some.inj h]
  simp only [if_neg (Nat.not_lt.mpr hid)]

/-- A round is passed as soon as every locality of the group leaves `receive`. -/
theorem round_of_receive (N root i : Nat) (w : World)
    (h : ∀ id, id < N → ∃ l, receive N root id (landed N root i w id) = some l) :
    ∃ w', round N root i w = some w' := by
  unfold round
  rw [if_pos]
  · exact ⟨_, rfl⟩
  · rw [List.all_eq_true]
    intro id hid
    obtain ⟨l, hl⟩ := h id (List.mem_range.mp hid)
    rw [hl]
    rfl

theorem round_proj {α : Type} (f : Locality → α)
    (hf : ∀ (l : Locality) (a : List Envelope) (b : Int), f { l with args := a, flag := b } = f l)
    (N root i : Nat) (w w' : World) (h : round N root i w = some w') (id : Nat) (hid : id < N) :
    f (w' id) = f (advance (exchange N root id i (w id)).1) := by
  obtain ⟨l, hl, hw'⟩ := round_some N root i w w' h id hid
  obtain ⟨b, rfl⟩ := receive_some N root id _ l hl
  rw [hw']
  have h1 : f (advance { landed N root i w id with flag := b }) =
      f (advance (landed N root i w id)) :=
    hf (advance (landed N root i w id)) (landed N root i w id).args b
  rw [h1]
  exact landed_proj (fun l => f (advance l))
    (fun l a b => hf (advance l) a b) N root i w id hid

theorem round_args (N root i : Nat) (w w' : World) (h : round N root i w = some w') (t : Nat) :
    (w' t).args =
      (w t).args ++ (outbox N root i w).flatMap (fun m => if m.parent = t then m.data_ else []) := by
  rw [← landed_args]
  by_cases ht : t < N
  · obtain ⟨l, hl, hw'⟩ := round_some N root i w w' h t ht
    obtain ⟨b, rfl⟩ := receive_some N root t _ l hl
    rw [hw']
    rfl
  · rw [round_some_outside N root i w w' h t (Nat.le_of_not_lt ht)]

/-! ## The loop as a whole -/

theorem loop_succ_some (N root k : Nat) (w w' : World) (h : loop N root (k + 1) w = some w') :
    ∃ wk, loop N root k w = some wk ∧ round N root k wk = some w' := by
  rw [loop, Option.bind_eq_some] at h
  exact h

theorem loop_mask (N root : Nat) (w : World) (id : Nat) (hid : id < N) :
    ∀ k wk, loop N root k w = some wk → (wk id).mask = (w id).mask * 2 ^ k := by
  intro k
  induction k with
  | zero =>
    intro wk h
    rw [loop] at h
    rw [← Option.some.inj h]
    simp
  | succ k ih =>
    intro wk h
    obtain ⟨wk', h1, h2⟩ := loop_succ_some N root k w wk h
    rw [round_proj Locality.mask (fun _ _ _ => rfl) N root k wk' wk h2 id hid]
    simp only [advance, exchange_fst_mask, ih wk' h1, Nat.shiftLeft_eq]
    ring

theorem loop_iterations (N root : Nat) (w : World) (id : Nat) (hid : id < N) :
    ∀ k wk, loop N root k w = some wk → (wk id).iterations = (w id).iterations + k := by
  intro k
  induction k with
  | zero =>
    intro wk h
    rw [loop] at h
    rw [← Option.some.inj h]
    simp
  | succ k ih =>
    intro wk h
    obtain ⟨wk', h1, h2⟩ := loop_succ_some N root k w wk h
    rw [round_proj Locality.iterations (fun _ _ _ => rfl) N root k wk' wk h2 id hid]
    simp only [advance, exchange_fst_iterations, ih wk' h1]
    ring

theorem loop_barriers (N root : Nat) (w : World) (id : Nat) (hid : id < N) :
    ∀ k wk, loop N root k w = some wk → (wk id).barriers = (w id).barriers + k := by
  intro k
  induction k with
  | zero =>
    intro wk h
    rw [loop] at h
    rw [← Option.some.inj h]
    simp
  | succ k ih =>
    intro wk h
    obtain ⟨wk', h1, h2⟩ := loop_succ_some N root k w wk h
    rw [round_proj Locality.barriers (fun _ _ _ => rfl) N root k wk' wk h2 id hid]
    simp only [advance, exchange_fst_barriers, ih wk' h1]
    ring

theorem loop_writes (N root : Nat) (w : World) (id : Nat) (hid : id < N) :
    ∀ k wk, loop N root k w = some wk → (wk id).writes = (w id).writes := by
  intro k
  induction k with
  | zero =>
    intro wk h
    rw [loop] at h
    rw [← Option.some.inj h]
  | succ k ih =>
    intro wk h
    obtain ⟨wk', h1, h2⟩ := loop_succ_some N root k w wk h
    rw [round_proj Locality.writes (fun _ _ _ => rfl) N root k wk' wk h2 id hid]
    simp only [advance, exchange_fst_writes, ih wk' h1]

theorem loop_sends (N root : Nat) (w : World) (id : Nat) (hid : id < N) :
    ∀ k wk, loop N root k w = some wk → (wk id).sends =
      (w id).sends ++
        ((List.range k).filter (fun i => decide (((w id).mask * 2 ^ i) &&& rank_me N root id ≠ 0))).map
          (fun i => (i, parent N root (rank_me N root id) ((w id).mask * 2 ^ i))) := by
  intro k
  induction k with
  | zero =>
    intro wk h
    rw [loop] at h
    rw [← Option.some.inj h]
    simp
  | succ k ih =>
    intro wk h
    obtain ⟨wk', h1, h2⟩ := loop_succ_some N root k w wk h
    rw [round_proj Locality.sends (fun _ _ _ => rfl) N root k wk' wk h2 id hid]
    simp only [advance, exchange_fst_sends, ih wk' h1, loop_mask N root w id hid k wk' h1,
      List.range_succ, List.filter_append, List.map_append, List.append_assoc]
    congr 1
    congr 1
    by_cases h : (w id).mask * 2 ^ k &&& rank_me N root id = 0
    · simp [h]
    · simp [h]

theorem loop_waits (N root : Nat) (w : World) (id : Nat) (hid : id < N) :
    ∀ k wk, loop N root k w = some wk → (wk id).waits =
      (w id).waits ++
        (List.range k).filter (fun i => decide (((w id).mask * 2 ^ i) &&& rank_me N root id = 0 ∧
          rank_me N root id ||| ((w id).mask * 2 ^ i) < N)) := by
  intro k
  induction k with
  | zero =>
    intro wk h
    rw [loop] at h
    rw [← Option.some.inj h]
    simp
  | succ k ih =>
    intro wk h
    obtain ⟨wk', h1, h2⟩ := loop_succ_some N root k w wk h
    rw [round_proj Locality.waits (fun _ _ _ => rfl) N root k wk' wk h2 id hid]
    simp only [advance, exchange_fst_waits, ih wk' h1, loop_mask N root w id hid k wk' h1,
      List.range_succ, List.filter_append, List.append_assoc]
    congr 2
    by_cases h : (w id).mask * 2 ^ k &&& rank_me N root id = 0 ∧
        rank_me N root id ||| (w id).mask * 2 ^ k < N
    · simp [h]
    · simp [h]

theorem cache_mask (N root id : Nat) (input : List Int) (l : Locality) :
    (cache N root id input l).mask = l.mask := by
  unfold cache; split_ifs <;> rfl

theorem cache_flag (N root id : Nat) (input : List Int) (l : Locality) :
    (cache N root id input l).flag = l.flag := by
  unfold cache; split_ifs <;> rfl

theorem cache_iterations (N root id : Nat) (input : List Int) (l : Locality) :
    (cache N root id input l).iterations = l.iterations := by
  unfold cache; split_ifs <;> rfl

theorem cache_barriers (N root id : Nat) (input : List Int) (l : Locality) :
    (cache N root id input l).barriers = l.barriers := by
  unfold cache; split_ifs <;> rfl

theorem cache_sends (N root id : Nat) (input : List Int) (l : Locality) :
    (cache N root id input l).sends = l.sends := by
  unfold cache; split_ifs <;> rfl

theorem cache_waits (N root id : Nat) (input : List Int) (l : Locality) :
    (cache N root id input l).waits = l.waits := by
  unfold cache; split_ifs <;> rfl

theorem cache_writes (N root id : Nat) (input : List Int) (l : Locality) :
    (cache N root id input l).writes = l.writes := by
  unfold cache; split_ifs <;> rfl

theorem cached_mask (N root : Nat) (input : Nat → List Int) (id : Nat) :
    (cached N root input fresh id).mask = 1 := by
  unfold cached
  split_ifs
  · rw [cache_mask]; rfl
  · rfl

theorem cached_flag (N root : Nat) (input : Nat → List Int) (id : Nat) :
    (cached N root input fresh id).flag = 0 := by
  unfold cached
  split_ifs
  · rw [cache_flag]; rfl
  · rfl

/-! ## Where the buffers come from -/

theorem forall_args_round (P : Envelope → Prop) (N root i : Nat) (w w' : World)
    (h : round N root i w = some w') (hw : ∀ id, ∀ e ∈ (w id).args, P e) :
    ∀ id, ∀ e ∈ (w' id).args, P e := by
  intro id e he
  rw [round_args N root i w w' h, List.mem_append] at he
  rcases he with he | he
  · exact hw id e he
  · rw [List.mem_flatMap] at he
    obtain ⟨m, hm, hem⟩ := he
    rw [mem_outbox] at hm
    obtain ⟨s, -, -, rfl⟩ := hm
    split_ifs at hem
    · exact hw s e hem
    · cases hem

theorem forall_args_loop (P : Envelope → Prop) (N root : Nat) (w : World)
    (hw : ∀ id, ∀ e ∈ (w id).args, P e) :
    ∀ k wk, loop N root k w = some wk → ∀ id, ∀ e ∈ (wk id).args, P e := by
  intro k
  induction k with
  | zero =>
    intro wk h
    rw [loop] at h
    rw [← Option.some.inj h]
    exact hw
  | succ k ih =>
    intro wk h
    obtain ⟨wk', h1, h2⟩ := loop_succ_some N root k w wk h
    exact forall_args_round P N root k wk' wk h2 (ih wk' h1)

/-- In a first call every buffer anywhere was framed by a locality of the group from its own
rotated rank and input. -/
theorem sourced_afterRounds (N root : Nat) (input : Nat → List Int) (w : World)
    (h : afterRounds N root input fresh = some w) (id : Nat) :
    ∀ e ∈ (w id).args, ∃ s, s < N ∧ e = frame (rank_me N root s) (input s) := by
  apply forall_args_loop (fun e => ∃ s, s < N ∧ e = frame (rank_me N root s) (input s))
    N root _ _ (logp N) w h
  intro id' e he
  unfold cached cache at he
  split_ifs at he with h1 h2
  · simp [fresh, construct] at he
    exact ⟨id', h1, he⟩
  · simp [fresh, construct] at he
  · simp [fresh, construct] at he

theorem drain_framed (l : List Envelope) (hl : ∀ e ∈ l, ∃ k es, e = frame k es) :
    ∃ ws, drain l = some ws := by
  induction l with
  | nil => exact ⟨[], rfl⟩
  | cons e l ih =>
    obtain ⟨k, es, rfl⟩ := hl e (List.mem_cons_self _ _)
    obtain ⟨ws, hws⟩ := ih (fun e he => hl e (List.mem_cons_of_mem _ he))
    exact ⟨_, by rw [drain, decode_frame_eq, hws]⟩

/-- Once the rounds of a first call are passed, finalization does not abort. -/
theorem drain_afterRounds (N root : Nat) (input : Nat → List Int) (w : World)
    (h : afterRounds N root input fresh = some w) (id : Nat) :
    ∃ ws, drain (w id).args = some ws := by
  apply drain_framed
  intro e he
  obtain ⟨s, -, hs⟩ := sourced_afterRounds N root input w h id e he
  exact ⟨_, _, hs⟩

theorem finalize_some (N root id : Nat) (l l' : Locality) (h : finalize N root id l = some l') :
    l'.mask = l.mask ∧ l'.args = l.args ∧ l'.iterations = l.iterations ∧ l'.sends = l.sends ∧
      l'.waits = l.waits ∧ l'.barriers = l.barriers := by
  unfold finalize at h
  split_ifs at h
  · rw [Option.map_eq_some'] at h
    obtain ⟨ws, -, rfl⟩ := h
    exact ⟨rfl, rfl, rfl, rfl, rfl, rfl⟩
  · cases h
    exact ⟨rfl, rfl, rfl, rfl, rfl, rfl⟩

theorem closing_mask (blocking : Bool) (l : Locality) : (closing blocking l).mask = l.mask := by
  unfold closing; split_ifs <;> rfl

theorem closing_barriers (blocking : Bool) (l : Locality) :
    (closing blocking l).barriers = l.barriers + (if blocking then 1 else 0) := by
  unfold closing; split_ifs <;> rfl

theorem closing_iterations (blocking : Bool) (l : Locality) :
    (closing blocking l).iterations = l.iterations := by
  unfold closing; split_ifs <;> rfl

theorem closing_sends (blocking : Bool) (l : Locality) :
    (closing blocking l).sends = l.sends := by
  unfold closing; split_ifs <;> rfl

theorem closing_args (blocking : Bool) (l : Locality) :
    (closing blocking l).args = l.args := by
  unfold closing; split_ifs <;> rfl

theorem closing_writes (blocking : Bool) (l : Locality) :
    (closing blocking l).writes = l.writes := by
  unfold closing; split_ifs <;> rfl

/-- Once the rounds of a first call are passed, the call returns at every locality, and what it
returns with is related field by field to the group after the rounds. -/
theorem call_fields (blocking : Bool) (N root : Nat) (input : Nat → List Int) (w : World)
    (h : afterRounds N root input fresh = some w) (id : Nat) :
    ∃ l, call blocking N root input fresh id = some l ∧
      l.iterations = (w id).iterations ∧ l.sends = (w id).sends ∧ l.args = (w id).args ∧
      l.waits = (w id).waits ∧
      l.barriers = (w id).barriers + (if blocking then 1 else 0) := by
  have hfin : ∃ l, finalize N root id (w id) = some l := by
    unfold finalize
    split_ifs
    · obtain ⟨ws, hws⟩ := drain_afterRounds N root input w h id
      exact ⟨_, by rw [hws]; rfl⟩
    · exact ⟨_, rfl⟩
  obtain ⟨l, hl⟩ := hfin
  obtain ⟨-, h2, h3, h4, h5, h6⟩ := finalize_some N root id _ l hl
  refine ⟨closing blocking l, ?_, ?_, ?_, ?_, ?_, ?_⟩
  · unfold call finish
    rw [h, Option.some_bind, hl]
    rfl
  · rw [closing_iterations, h3]
  · rw [closing_sends, h4]
  · rw [closing_args, h2]
  · unfold closing; split_ifs <;> exact h5
  · rw [closing_barriers, h6]

/-! ## The logarithm -/

theorem log2Floor_eq_log : ∀ (fuel n : Nat), n ≤ fuel → log2Floor fuel n = Nat.log 2 n := by
  intro fuel
  induction fuel with
  | zero =>
    intro n hn
    have : n = 0 := by omega
    subst this
    simp [log2Floor]
  | succ fuel ih =>
    intro n hn
    unfold log2Floor
    split_ifs with h
    · exact (Nat.log_of_lt h).symm
    · rw [ih (n / 2) (by omega)]
      exact (Nat.log_of_one_lt_of_le (by norm_num) (by omega)).symm

theorem logp_eq_log (N : Nat) : logp N = Nat.log 2 N :=
  log2Floor_eq_log N N (le_refl N)

theorem two_pow_logp_le (N : Nat) (hN : 1 ≤ N) : 2 ^ logp N ≤ N := by
  rw [logp_eq_log]
  exact Nat.pow_log_le_self 2 (by omega)

theorem logp_two_pow (m : Nat) : logp (2 ^ m) = m := by
  rw [logp_eq_log]
  exact Nat.log_pow (by norm_num) m

/-- The helper `andNot` is the bitwise "and not". -/
theorem andNot_testBit (x m i : Nat) :
    (andNot x m).testBit i = (x.testBit i && !m.testBit i) := by
  unfold andNot
  rw [Nat.testBit_xor, Nat.testBit_and]
  cases x.testBit i <;> cases m.testBit i <;> rfl

theorem two_pow_and_ne_zero (x r : Nat) : (2 ^ r &&& x ≠ 0) ↔ x.testBit r = true := by
  rw [Nat.and_comm, Nat.and_two_pow]
  cases h : x.testBit r <;> simp [Nat.pos_iff_ne_zero.mp (Nat.two_pow_pos r)]

theorem and_two_pow_eq_zero (x r : Nat) : (2 ^ r &&& x = 0) ↔ x.testBit r = false := by
  have h := two_pow_and_ne_zero x r
  constructor
  · intro h0
    by_contra hb
    exact (h.mpr (by simpa using hb)) h0
  · intro hb
    by_contra h0
    rw [h.mp h0] at hb
    cases hb

theorem split_at_bit (a c r : Nat) (hc : c < 2 ^ r) :
    (2 ^ (r + 1) * a + (2 ^ r + c)) ^^^ 2 ^ r = 2 ^ (r + 1) * a + c := by
  apply Nat.eq_of_testBit_eq
  intro j
  have hc' : c < 2 ^ (r + 1) := by rw [pow_succ]; omega
  have hb : 2 ^ r + c < 2 ^ (r + 1) := by rw [pow_succ]; omega
  rw [Nat.testBit_xor, Nat.testBit_mul_pow_two_add a hb j, Nat.testBit_mul_pow_two_add a hc' j,
    Nat.testBit_two_pow]
  rcases Nat.lt_trichotomy j r with hj | hj | hj
  · have h1 : j < r + 1 := by omega
    have h2 : ¬ r = j := by omega
    simp [h1, h2, Nat.testBit_two_pow_add_gt hj c]
  · subst hj
    simp [Nat.testBit_two_pow_add_eq, Nat.testBit_lt_two_pow hc]
  · have h1 : ¬ j < r + 1 := by omega
    have h2 : ¬ r = j := by omega
    simp [h1, h2]

theorem bit_decomposition (x r : Nat) (h : x.testBit r = true) :
    x = 2 ^ (r + 1) * (x / 2 ^ (r + 1)) + (2 ^ r + x % 2 ^ r) := by
  rw [Nat.testBit_to_div_mod] at h
  have h1 : x / 2 ^ r % 2 = 1 := by simpa using h
  have h2 := Nat.div_add_mod x (2 ^ r)
  have h3 := Nat.div_add_mod (x / 2 ^ r) 2
  have h4 : x / 2 ^ r / 2 = x / 2 ^ (r + 1) := by rw [Nat.div_div_eq_div_mul, pow_succ]
  rw [h1, h4] at h3
  calc x = 2 ^ r * (x / 2 ^ r) + x % 2 ^ r := h2.symm
    _ = 2 ^ r * (2 * (x / 2 ^ (r + 1)) + 1) + x % 2 ^ r := by rw [h3]
    _ = 2 ^ (r + 1) * (x / 2 ^ (r + 1)) + (2 ^ r + x % 2 ^ r) := by rw [pow_succ]; ring

/-- Clearing a set bit subtracts its weight. -/
theorem andNot_two_pow (x r : Nat) (h : x.testBit r = true) : andNot x (2 ^ r) = x - 2 ^ r := by
  have hand : x &&& 2 ^ r = 2 ^ r := by rw [Nat.and_two_pow, h]; simp
  have hc : x % 2 ^ r < 2 ^ r := Nat.mod_lt _ (Nat.two_pow_pos r)
  have hx := bit_decomposition x r h
  have hs := split_at_bit (x / 2 ^ (r + 1)) (x % 2 ^ r) r hc
  rw [← hx] at hs
  unfold andNot
  rw [hand, hs]
  omega

/-- Setting a clear bit adds its weight. -/
theorem or_two_pow (x r : Nat) (h : x.testBit r = false) : x ||| 2 ^ r = x + 2 ^ r := by
  have hy : (x ||| 2 ^ r).testBit r = true := by
    rw [Nat.testBit_or, Nat.testBit_two_pow_self, Bool.or_true]
  have hx : andNot (x ||| 2 ^ r) (2 ^ r) = x := by
    apply Nat.eq_of_testBit_eq
    intro i
    rw [andNot_testBit, Nat.testBit_or, Nat.testBit_two_pow]
    by_cases hi : r = i
    · subst hi; simp [h]
    · simp [hi]
  have hge := Nat.testBit_implies_ge hy
  rw [andNot_two_pow _ r hy] at hx
  omega

/-- A multiple of `2 ^ (r + 1)` plus `2 ^ r` has bit `r` set. -/
theorem testBit_add_two_pow (x r : Nat) (hx : 2 ^ (r + 1) ∣ x) : (x + 2 ^ r).testBit r = true := by
  obtain ⟨q, rfl⟩ := hx
  have hp : 2 ^ r < 2 ^ (r + 1) := by
    have := Nat.two_pow_pos r
    rw [pow_succ]; omega
  have h := Nat.testBit_mul_pow_two_add q hp r
  rw [h]
  simp [Nat.testBit_two_pow_self]

theorem rank_me_root_zero (N id : Nat) (hid : id < N) : rank_me N 0 id = id := by
  unfold rank_me
  rw [Nat.add_zero, Nat.mod_eq_of_lt hid]

theorem rank_me_lt (N root id : Nat) (hN : 0 < N) : rank_me N root id < N :=
  Nat.mod_lt _ hN

theorem parent_root_zero (N x r : Nat) (hx : x < N) (hb : x.testBit r = true) :
    parent N 0 x (1 <<< r) = x - 2 ^ r := by
  unfold parent
  rw [Nat.shiftLeft_eq, one_mul, andNot_two_pow x r hb, Nat.add_zero]
  exact Nat.mod_eq_of_lt (lt_of_le_of_lt (Nat.sub_le x (2 ^ r)) hx)

theorem add_mod_cancel_lt (N root a b : Nat) (ha : a < N) (hb : b < N)
    (h : (a + root) % N = (b + root) % N) : a = b := by
  have h1 : a ≡ b [MOD N] := Nat.ModEq.add_right_cancel' root h
  exact Nat.ModEq.eq_of_lt_of_lt h1 ha hb

/-! ## Fields after the rounds of a first call -/

theorem afterRounds_mask (N root : Nat) (input : Nat → List Int) (w0 w : World)
    (h : afterRounds N root input w0 = some w) (id : Nat) (hid : id < N) :
    (w id).mask = (w0 id).mask * 2 ^ logp N := by
  rw [loop_mask N root _ id hid (logp N) w h]
  simp [cached, hid, cache_mask]

theorem afterRounds_iterations (N root : Nat) (input : Nat → List Int) (w : World)
    (h : afterRounds N root input fresh = some w) (id : Nat) (hid : id < N) :
    (w id).iterations = logp N := by
  rw [loop_iterations N root _ id hid (logp N) w h]
  simp [cached, hid, cache_iterations, fresh, construct]

theorem afterRounds_barriers (N root : Nat) (input : Nat → List Int) (w : World)
    (h : afterRounds N root input fresh = some w) (id : Nat) (hid : id < N) :
    (w id).barriers = logp N := by
  rw [loop_barriers N root _ id hid (logp N) w h]
  simp [cached, hid, cache_barriers, fresh, construct]

theorem afterRounds_writes (N root : Nat) (input : Nat → List Int) (w : World)
    (h : afterRounds N root input fresh = some w) (id : Nat) (hid : id < N) :
    (w id).writes = [] := by
  rw [loop_writes N root _ id hid (logp N) w h]
  simp [cached, hid, cache_writes, fresh, construct]

theorem afterRounds_sends (N root : Nat) (input : Nat → List Int) (w : World)
    (h : afterRounds N root input fresh = some w) (id : Nat) (hid : id < N) :
    (w id).sends =
      ((List.range (logp N)).filter (fun r => (rank_me N root id).testBit r)).map
        (fun r => (r, parent N root (rank_me N root id) (1 <<< r))) := by
  rw [loop_sends N root _ id hid (logp N) w h]
  have hm : (cached N root input fresh id).mask = 1 := cached_mask N root input id
  have hs : (cached N root input fresh id).sends = [] := by
    simp [cached, hid, cache_sends, fresh, construct]
  rw [hm, hs, List.nil_append]
  simp only [one_mul, Nat.shiftLeft_eq]
  congr 1
  apply List.filter_congr
  intro r _
  by_cases h : (rank_me N root id).testBit r = true
  · simp [h, (two_pow_and_ne_zero _ r).mpr h]
  · have h' := (not_congr (two_pow_and_ne_zero (rank_me N root id) r)).mpr h
    simp only [ne_eq, not_not] at h'
    simp [h, h']

/-- Round `r` is logged as a wait at a locality of the group exactly when it is a round of the
call, bit `r` of the rotated rank is clear and the partner rank lies in the group. -/
theorem mem_waits (N root : Nat) (input : Nat → List Int) (w : World)
    (h : afterRounds N root input fresh = some w) (id : Nat) (hid : id < N) (r : Nat) :
    r ∈ (w id).waits ↔
      r < logp N ∧ (rank_me N root id).testBit r = false ∧
        rank_me N root id ||| 1 <<< r < N := by
  rw [loop_waits N root _ id hid (logp N) w h]
  have hm : (cached N root input fresh id).mask = 1 := cached_mask N root input id
  have hs : (cached N root input fresh id).waits = [] := by
    simp [cached, hid, cache_waits, fresh, construct]
  rw [hm, hs, List.nil_append, List.mem_filter, List.mem_range]
  simp only [one_mul, Nat.shiftLeft_eq, decide_eq_true_eq, and_two_pow_eq_zero]

/-- A send `(r, p)` is logged at a locality of the group exactly when `r` is a round of the
call, bit `r` of the rotated rank is set and `p` is the computed parent. -/
theorem mem_sends (N root : Nat) (input : Nat → List Int) (w : World)
    (h : afterRounds N root input fresh = some w) (id : Nat) (hid : id < N) (r p : Nat) :
    (r, p) ∈ (w id).sends ↔
      r < logp N ∧ (rank_me N root id).testBit r = true ∧
        p = parent N root (rank_me N root id) (1 <<< r) := by
  rw [afterRounds_sends N root input w h id hid, List.mem_map]
  constructor
  · rintro ⟨r', hr', heq⟩
    rw [List.mem_filter, List.mem_range] at hr'
    simp only [Prod.mk.injEq] at heq
    obtain ⟨rfl, rfl⟩ := heq
    exact ⟨hr'.1, hr'.2, rfl⟩
  · rintro ⟨h1, h2, rfl⟩
    exact ⟨r, List.mem_filter.mpr ⟨List.mem_range.mpr h1, h2⟩, rfl⟩

/-! ## Who delivers to whom -/

theorem flatMap_filterMap {α β γ : Type} (f : α → Option β) (g : β → List γ) (l : List α) :
    (l.filterMap f).flatMap g =
      l.flatMap (fun a => match f a with
        | some b => g b
        | none => []) := by
  induction l with
  | nil => rfl
  | cons a l ih =>
    rw [List.filterMap_cons, List.flatMap_cons]
    cases h : f a with
    | none => simp [ih]
    | some b => simp [ih]

theorem flatMap_eq_of_unique {α β : Type} (g : α → List β) (a : α) :
    ∀ l : List α, l.Nodup → a ∈ l → (∀ b ∈ l, b ≠ a → g b = []) → l.flatMap g = g a := by
  intro l
  induction l with
  | nil => intro _ ha; cases ha
  | cons b l ih =>
    intro hnd ha hg
    rw [List.nodup_cons] at hnd
    rw [List.flatMap_cons]
    by_cases hba : b = a
    · subst hba
      have : l.flatMap g = [] := by
        rw [List.flatMap_eq_nil_iff]
        intro c hc
        exact hg c (List.mem_cons_of_mem _ hc) (fun h => hnd.1 (h ▸ hc))
      rw [this, List.append_nil]
    · rw [hg b (List.mem_cons_self _ _) hba, List.nil_append]
      have ha' : a ∈ l := by
        rcases List.mem_cons.mp ha with h | h
        · exact absurd h.symm hba
        · exact h
      exact ih hnd.2 ha' (fun c hc => hg c (List.mem_cons_of_mem _ hc))

/-- After a round that is passed a vector holds what it held plus, by sender id, the vectors of
the senders whose `parent` is this locality. -/
theorem round_args_incoming (N root i : Nat) (w w' : World) (h : round N root i w = some w')
    (t : Nat) :
    (w' t).args =
      (w t).args ++ (List.range N).flatMap (fun s =>
        if (w s).mask &&& rank_me N root s = 0 then []
        else if parent N root (rank_me N root s) (w s).mask = t then (w s).args else []) := by
  rw [round_args N root i w w' h, outbox, flatMap_filterMap]
  congr 1
  apply List.flatMap_congr
  intro s _
  rw [exchange_snd]
  split_ifs <;> simp_all

/-! ## Reach of the schedule with root 0 -/

/-- With root 0 and mask `2 ^ r` everywhere, a locality of the group is addressed by a message
of the round exactly when it is a receiver of the round. -/
theorem targeted_iff_receiver (N r : Nat) (w : World) (hm : ∀ id, id < N → (w id).mask = 2 ^ r)
    (t : Nat) :
    (∃ m ∈ outbox N 0 r w, m.parent = t) ↔ (t.testBit r = false ∧ t ||| 2 ^ r < N) := by
  constructor
  · rintro ⟨m, hmem, hp⟩
    rw [mem_outbox] at hmem
    obtain ⟨s, hs, hsend, rfl⟩ := hmem
    rw [hm s hs, rank_me_root_zero N s hs] at hsend
    have hb := (two_pow_and_ne_zero s r).mp hsend
    have hge := Nat.testBit_implies_ge hb
    have hpar := parent_root_zero N s r hs hb
    rw [Nat.shiftLeft_eq, one_mul] at hpar
    simp only [hm s hs, rank_me_root_zero N s hs, hpar] at hp
    have hbit : t.testBit r = false := by
      rw [← hp, ← andNot_two_pow s r hb, andNot_testBit, Nat.testBit_two_pow_self]
      simp
    refine ⟨hbit, ?_⟩
    rw [or_two_pow t r hbit, ← hp, Nat.sub_add_cancel hge]
    exact hs
  · rintro ⟨hbit, hlt⟩
    have hor := or_two_pow t r hbit
    have hb : (t ||| 2 ^ r).testBit r = true := by
      rw [Nat.testBit_or, Nat.testBit_two_pow_self, Bool.or_true]
    have hpar := parent_root_zero N (t ||| 2 ^ r) r hlt hb
    rw [Nat.shiftLeft_eq, one_mul] at hpar
    refine ⟨⟨parent N 0 (rank_me N 0 (t ||| 2 ^ r)) (w (t ||| 2 ^ r)).mask,
      (w (t ||| 2 ^ r)).args⟩, ?_, ?_⟩
    · rw [mem_outbox]
      refine ⟨t ||| 2 ^ r, hlt, ?_, rfl⟩
      rw [hm _ hlt, rank_me_root_zero N _ hlt]
      exact (two_pow_and_ne_zero _ r).mpr hb
    · show parent N 0 (rank_me N 0 (t ||| 2 ^ r)) (w (t ||| 2 ^ r)).mask = t
      rw [hm _ hlt, rank_me_root_zero N _ hlt, hpar, hor, Nat.add_sub_cancel]

/-- With root 0, clear flags and mask `2 ^ r` everywhere, round `r` is passed and leaves the
flags clear. -/
theorem round_root_zero (N r : Nat) (w : World) (hm : ∀ id, id < N → (w id).mask = 2 ^ r)
    (hf : ∀ id, id < N → (w id).flag = 0) :
    ∃ w', round N 0 r w = some w' ∧ ∀ id, id < N → (w' id).flag = 0 := by
  have hlm : ∀ id, id < N → (landed N 0 r w id).mask = 2 ^ r := by
    intro id hid
    rw [landed_proj Locality.mask (fun _ _ _ => rfl) N 0 r w id hid, exchange_fst_mask, hm id hid]
  have hrecv : ∀ id, id < N → ∃ l, receive N 0 id (landed N 0 r w id) = some l ∧ l.flag = 0 := by
    intro id hid
    have hflag := landed_flag N 0 r w id (hf id hid)
    rw [if_congr (targeted_iff_receiver N r w hm id) rfl rfl] at hflag
    have hcond : ((landed N 0 r w id).mask &&& rank_me N 0 id = 0 ∧
        rank_me N 0 id ||| (landed N 0 r w id).mask < N) ↔
        (id.testBit r = false ∧ id ||| 2 ^ r < N) := by
      rw [hlm id hid, rank_me_root_zero N id hid, and_two_pow_eq_zero]
    by_cases hw : id.testBit r = false ∧ id ||| 2 ^ r < N
    · rw [if_pos hw] at hflag
      exact ⟨_, receive_set N 0 id _ (hcond.mpr hw) hflag, rfl⟩
    · rw [if_neg hw] at hflag
      exact ⟨_, receive_pass N 0 id _ (fun h => hw (hcond.mp h)), hflag⟩
  obtain ⟨w', hw'⟩ := round_of_receive N 0 r w (fun id hid =>
    let ⟨l, hl, _⟩ := hrecv id hid
    ⟨l, hl⟩)
  refine ⟨w', hw', ?_⟩
  intro id hid
  obtain ⟨l, hl, hwl⟩ := round_some N 0 r w w' hw' id hid
  obtain ⟨l2, hl2, hfl⟩ := hrecv id hid
  rw [hl] at hl2
  rw [hwl, Option.some.inj hl2]
  exact hfl

/-- With root 0 the loop of a first call passes any number of rounds; after `r` of them the
flags are clear and the locality at the head of an aligned block of `2 ^ r` ranks inside the
group holds the buffers of that block, in rank order, rank 0 excepted. -/
theorem loop_root_zero (N : Nat) (input : Nat → List Int) :
    ∀ r, ∃ w, loop N 0 r (cached N 0 input fresh) = some w ∧
      (∀ id, id < N → (w id).flag = 0) ∧
      ∀ x, 2 ^ r ∣ x → x + 2 ^ r ≤ N →
        (w x).args =
          ((List.range' x (2 ^ r)).filter (fun k => decide (k ≠ 0))).map
            (fun k => frame k (input k)) := by
  intro r
  induction r with
  | zero =>
    refine ⟨cached N 0 input fresh, rfl, fun id _ => cached_flag N 0 input id, ?_⟩
    intro x _ hx
    have hxN : x < N := by simpa using hx
    simp only [cached, if_pos hxN, cache, rank_me_root_zero N x hxN, pow_zero,
      List.range'_one]
    by_cases h0 : x = 0
    · simp [h0, fresh, construct]
    · simp [h0, fresh, construct]
  | succ r ih =>
    obtain ⟨w, hw, hflag, hargs⟩ := ih
    have hmask : ∀ id, id < N → (w id).mask = 2 ^ r := by
      intro id hid
      rw [loop_mask N 0 _ id hid r w hw, cached_mask, one_mul]
    obtain ⟨w', hw', hflag'⟩ := round_root_zero N r w hmask hflag
    refine ⟨w', by rw [loop, hw, Option.some_bind, hw'], hflag', ?_⟩
    intro x hdvd hx
    have hpos := Nat.two_pow_pos r
    have hpow : 2 ^ (r + 1) = 2 ^ r + 2 ^ r := by rw [pow_succ]; ring
    have hdvd' : 2 ^ r ∣ x := Dvd.dvd.trans (Dvd.intro _ (pow_succ 2 r).symm) hdvd
    have hx1 : x + 2 ^ r ≤ N := by omega
    have hx2 : x + 2 ^ r + 2 ^ r ≤ N := by omega
    have hs : x + 2 ^ r < N := by omega
    rw [round_args_incoming N 0 r w w' hw', hargs x hdvd' hx1]
    have hin : (List.range N).flatMap (fun s =>
        if (w s).mask &&& rank_me N 0 s = 0 then []
        else if parent N 0 (rank_me N 0 s) (w s).mask = x then (w s).args else []) =
        (w (x + 2 ^ r)).args := by
      rw [flatMap_eq_of_unique _ (x + 2 ^ r) (List.range N) (List.nodup_range N)
        (List.mem_range.mpr hs)]
      · have hb := testBit_add_two_pow x r hdvd
        rw [hmask _ hs, rank_me_root_zero N _ hs,
          if_neg ((two_pow_and_ne_zero _ r).mpr hb), parent, andNot_two_pow _ r hb,
          if_pos (by rw [Nat.add_zero, Nat.add_sub_cancel]; exact Nat.mod_eq_of_lt (by omega))]
      · intro s hsmem hne
        have hsN : s < N := List.mem_range.mp hsmem
        rw [hmask _ hsN, rank_me_root_zero N _ hsN]
        by_cases hb : s.testBit r = true
        · rw [if_neg ((two_pow_and_ne_zero _ r).mpr hb), parent, andNot_two_pow _ r hb]
          have hge := Nat.testBit_implies_ge hb
          have hlt : s - 2 ^ r < N := by omega
          rw [Nat.add_zero, Nat.mod_eq_of_lt hlt, if_neg (by omega)]
        · have hz := (not_congr (two_pow_and_ne_zero s r)).mpr hb
          simp only [ne_eq, not_not] at hz
          rw [if_pos hz]
    rw [hin, hargs (x + 2 ^ r) ((Nat.dvd_add_right hdvd').mpr (dvd_refl _)) hx2,
      ← List.map_append, ← List.filter_append, hpow]
    congr 2
    have h := List.range'_append x (2 ^ r) (2 ^ r) 1
    rw [Nat.one_mul] at h
    exact h

theorem filter_ne_zero_range' (n : Nat) :
    (List.range' 0 (n + 1)).filter (fun k => decide (k ≠ 0)) = List.range' 1 n := by
  rw [List.range'_succ, List.filter_cons_of_neg (by simp), List.filter_eq_self]
  intro k hk
  rw [List.mem_range'_1] at hk
  simp only [ne_eq, decide_not, Bool.not_eq_eq_eq_not, Bool.not_true, decide_eq_false_iff_not]
  omega

/-- With root 0 the rounds of a first call are all passed, and afterwards locality 0 holds the
buffers of ranks `1, ..., 2 ^ logp - 1`, in that order. -/
theorem root_args (N : Nat) (input : Nat → List Int) (hN : 1 ≤ N) :
    ∃ w, afterRounds N 0 input fresh = some w ∧
      (w 0).args = (List.range' 1 (2 ^ logp N - 1)).map (fun k => frame k (input k)) := by
  have hK := two_pow_logp_le N hN
  have hpos := Nat.two_pow_pos (logp N)
  obtain ⟨w, hw, -, hargs⟩ := loop_root_zero N input (logp N)
  refine ⟨w, hw, ?_⟩
  rw [hargs 0 (dvd_zero _) (by omega)]
  have h := filter_ne_zero_range' (2 ^ logp N - 1)
  rw [Nat.sub_add_cancel hpos] at h
  rw [h]

/-- With root 0 the rounds of a first call are all passed, whatever the group size. -/
theorem afterRounds_root_zero (N : Nat) (input : Nat → List Int) :
    ∃ w, afterRounds N 0 input fresh = some w :=
  let ⟨w, hw, _⟩ := loop_root_zero N input (logp N)
  ⟨w, hw⟩

theorem head_frame (k : Nat) (es : List Int) : (frame k es).head? = some (k : Int) := rfl

/-- Among the buffers of ranks `1, ..., n`, exactly one starts with `j` when `1 ≤ j ≤ n`, and
none otherwise. -/
theorem count_in_rank (j : Nat) (input : Nat → List Int) : ∀ n : Nat,
    (((List.range' 1 n).map (fun k => frame k (input k))).filter
      (fun e => decide (e.head? = some (j : Int)))).length =
      if 1 ≤ j ∧ j < 1 + n then 1 else 0 := by
  intro n
  induction n with
  | zero =>
    have : ¬ (1 ≤ j ∧ j < 1 + 0) := by omega
    rw [if_neg this]
    rfl
  | succ n ih =>
    rw [List.range'_concat, List.map_append, List.filter_append, List.length_append, ih]
    simp only [Nat.one_mul, List.map_cons, List.map_nil]
    by_cases hj : j = 1 + n
    · subst hj
      have h1 : ¬ (1 ≤ 1 + n ∧ 1 + n < 1 + n) := by omega
      have h2 : 1 ≤ 1 + n ∧ 1 + n < 1 + (n + 1) := by omega
      rw [if_neg h1, if_pos h2, List.filter_cons_of_pos (by rw [head_frame]; simp)]
      rfl
    · have hne : ¬ (some ((1 + n : Nat) : Int) = some (j : Int)) := by
        intro h
        apply hj
        have := Option.some.inj h
        exact_mod_cast this.symm
      rw [List.filter_cons_of_neg (by rw [head_frame]; simpa using hne)]
      by_cases h1 : 1 ≤ j ∧ j < 1 + n
      · have h2 : 1 ≤ j ∧ j < 1 + (n + 1) := by omega
        rw [if_pos h1, if_pos h2]
        rfl
      · have h2 : ¬ (1 ≤ j ∧ j < 1 + (n + 1)) := by omega
        rw [if_neg h1, if_neg h2]
        rfl

/-! ## Output stores -/

theorem decode_frame (k : Nat) (es : List Int) : decode (frame k es) = some (layout k es) :=
  decode_frame_eq k es

theorem drain_frames (input : Nat → List Int) : ∀ ks : List Nat,
    drain (ks.map (fun k => frame k (input k))) = some (ks.flatMap (fun k => layout k (input k))) := by
  intro ks
  induction ks with
  | nil => rfl
  | cons k ks ih =>
    rw [List.map_cons, drain, decode_frame, ih, List.flatMap_cons]

theorem store_append (a b : List (Int × Int)) (o : Int → Int) :
    store (a ++ b) o = store b (store a o) := by
  unfold store
  rw [List.foldl_append]

theorem store_miss : ∀ (ws : List (Int × Int)) (o : Int → Int) (p : Int),
    p ∉ ws.map Prod.fst → store ws o p = o p := by
  intro ws
  induction ws with
  | nil => intro o p _; rfl
  | cons w ws ih =>
    intro o p hp
    rw [List.map_cons, List.mem_cons, not_or] at hp
    have h := ih (Function.update o w.1 w.2) p hp.2
    unfold store at h ⊢
    rw [List.foldl_cons, h, Function.update_noteq hp.1]

theorem store_hit : ∀ (ws : List (Int × Int)) (o : Int → Int) (p v : Int),
    (ws.map Prod.fst).Nodup → (p, v) ∈ ws → store ws o p = v := by
  intro ws
  induction ws with
  | nil => intro o p v _ h; cases h
  | cons w ws ih =>
    intro o p v hnd hmem
    rw [List.map_cons, List.nodup_cons] at hnd
    rcases List.mem_cons.mp hmem with h | h
    · subst h
      have h := store_miss ws (Function.update o p v) p hnd.1
      unfold store at h ⊢
      rw [List.foldl_cons, h, Function.update_same]
    · have h' := ih (Function.update o w.1 w.2) p v hnd.2 h
      unfold store at h' ⊢
      rw [List.foldl_cons, h']

theorem layout_fst (k : Nat) (es : List Int) :
    (layout k es).map Prod.fst =
      (List.range es.length).map (fun i : Nat => (k : Int) * (es.length : Int) + (i : Int)) := by
  unfold layout
  rw [List.map_map, ← List.enum_map_fst, List.map_map]
  rfl

theorem layout_fst_nodup (k : Nat) (es : List Int) : ((layout k es).map Prod.fst).Nodup := by
  rw [layout_fst]
  apply List.Nodup.map _ (List.nodup_range _)
  intro a b hab
  have : (a : Int) = (b : Int) := by
    simp only [add_right_inj] at hab
    exact hab
  exact_mod_cast this

theorem store_layout_hit (k : Nat) (es : List Int) (o : Int → Int) (i : Nat) (v : Int)
    (h : es[i]? = some v) :
    store (layout k es) o ((k : Int) * (es.length : Int) + (i : Int)) = v := by
  apply store_hit _ _ _ _ (layout_fst_nodup k es)
  unfold layout
  rw [List.mem_map]
  exact ⟨(i, v), List.mk_mem_enum_iff_getElem?.mpr h, rfl⟩

theorem store_layout_miss (k : Nat) (es : List Int) (o : Int → Int) (p : Int)
    (h : ∀ i : Nat, i < es.length → p ≠ (k : Int) * (es.length : Int) + (i : Int)) :
    store (layout k es) o p = o p := by
  apply store_miss
  rw [layout_fst, List.mem_map]
  rintro ⟨i, hi, rfl⟩
  exact h i (List.mem_range.mp hi) rfl

/-- Reading the blocks of ranks `1, ..., n`: position `k * L + i` holds element `i` of rank `k`. -/
theorem store_blocks_hit (input : Nat → List Int) (L : Nat) : ∀ n : Nat,
    (∀ k, 1 ≤ k → k ≤ n → (input k).length = L) →
    ∀ (o : Int → Int) (k i : Nat) (v : Int), 1 ≤ k → k ≤ n → (input k)[i]? = some v →
      store ((List.range' 1 n).flatMap (fun k => layout k (input k))) o
        ((k : Int) * (L : Int) + (i : Int)) = v := by
  intro n
  induction n with
  | zero => intro _ o k i v h1 h2; omega
  | succ n ih =>
    intro hL o k i v h1 h2 hv
    rw [List.range'_concat, List.flatMap_append, store_append, Nat.one_mul, List.flatMap_singleton]
    by_cases hk : k = 1 + n
    · subst hk
      have hlen := hL (1 + n) (by omega) (by omega)
      have := store_layout_hit (1 + n) (input (1 + n))
        (store ((List.range' 1 n).flatMap (fun k => layout k (input k))) o) i v hv
      rw [hlen] at this
      exact this
    · have hlen := hL (1 + n) (by omega) (by omega)
      have hi : i < L := by
        have := hL k h1 h2
        rw [← this]
        by_contra hc
        rw [List.getElem?_eq_none (by omega)] at hv
        cases hv
      rw [store_layout_miss]
      · exact ih (fun k' a b => hL k' a (by omega)) o k i v h1 (by omega) hv
      · intro i' _
        rw [hlen]
        have hmul : (k + 1) * L ≤ (1 + n) * L := Nat.mul_le_mul_right L (by omega)
        have hmul' : ((k : Int) + 1) * (L : Int) ≤ ((1 + n : Nat) : Int) * (L : Int) := by
          exact_mod_cast hmul
        intro heq
        have hi' : (i : Int) < (L : Int) := by exact_mod_cast hi
        have hi0 : (0 : Int) ≤ (i' : Int) := Int.natCast_nonneg i'
        nlinarith

/-- Positions outside the blocks of ranks `1, ..., n` keep their value. -/
theorem store_blocks_miss (input : Nat → List Int) (L : Nat) : ∀ n : Nat,
    (∀ k, 1 ≤ k → k ≤ n → (input k).length = L) →
    ∀ (o : Int → Int) (p : Int), (p < (L : Int) ∨ ((1 + n : Nat) : Int) * (L : Int) ≤ p) →
      store ((List.range' 1 n).flatMap (fun k => layout k (input k))) o p = o p := by
  intro n
  induction n with
  | zero => intro _ o p _; rfl
  | succ n ih =>
    intro hL o p hp
    have hlen := hL (1 + n) (by omega) (by omega)
    have hn0 : (0 : Int) ≤ (L : Int) := Int.natCast_nonneg L
    rw [List.range'_concat, List.flatMap_append, store_append, Nat.one_mul, List.flatMap_singleton,
      store_layout_miss]
    · apply ih (fun k' a b => hL k' a (by omega)) o p
      rcases hp with hp | hp
      · exact Or.inl hp
      · right
        push_cast at hp ⊢
        nlinarith
    · intro i' hi'
      rw [hlen] at hi' ⊢
      have hi2 : (i' : Int) < (L : Int) := by exact_mod_cast hi'
      have hi0 : (0 : Int) ≤ (i' : Int) := Int.natCast_nonneg i'
      have hnn : (0 : Int) ≤ (n : Int) := Int.natCast_nonneg n
      intro heq
      rcases hp with hp | hp
      · push_cast at heq
        nlinarith
      · push_cast at hp heq
        nlinarith

theorem mem_drain : ∀ (l : List Envelope) (ws : List (Int × Int)), drain l = some ws →
    ∀ pv ∈ ws, ∃ e ∈ l, ∃ ws', decode e = some ws' ∧ pv ∈ ws' := by
  intro l
  induction l with
  | nil =>
    intro ws h pv hpv
    simp [drain] at h
    subst h
    cases hpv
  | cons e l ih =>
    intro ws h pv hpv
    rw [drain] at h
    cases hd : decode e with
    | none => rw [hd] at h; simp at h
    | some a =>
      cases hr : drain l with
      | none => rw [hd, hr] at h; simp at h
      | some b =>
        rw [hd, hr] at h
        simp only [Option.some.injEq] at h
        subst h
        rcases List.mem_append.mp hpv with hp | hp
        · exact ⟨e, List.mem_cons_self _ _, a, hd, hp⟩
        · obtain ⟨e', he', ws', hws', hp'⟩ := ih b hr pv hp
          exact ⟨e', List.mem_cons_of_mem _ he', ws', hws', hp'⟩

theorem layout_bound (k N : Nat) (es : List Int) (hk : k < N) :
    ∀ pv ∈ layout k es, 0 ≤ pv.1 ∧ pv.1 < (N : Int) * (es.length : Int) := by
  intro pv hpv
  have hfst : pv.1 ∈ (layout k es).map Prod.fst := List.mem_map_of_mem _ hpv
  rw [layout_fst, List.mem_map] at hfst
  obtain ⟨i, hi, hpos⟩ := hfst
  rw [List.mem_range] at hi
  have h1 : (k + 1) * es.length ≤ N * es.length := Nat.mul_le_mul_right _ (by omega)
  have h2 : ((k : Int) + 1) * (es.length : Int) ≤ (N : Int) * (es.length : Int) := by
    exact_mod_cast h1
  have h3 : (i : Int) < (es.length : Int) := by exact_mod_cast hi
  have h4 : (0 : Int) ≤ (i : Int) := Int.natCast_nonneg i
  have h5 : (0 : Int) ≤ (k : Int) * (es.length : Int) :=
    mul_nonneg (Int.natCast_nonneg k) (Int.natCast_nonneg _)
  rw [← hpos]
  constructor
  · linarith
  · nlinarith

/-- With root 0, a first call returns at locality 0 having stored exactly the blocks of ranks
`1, ..., 2 ^ logp - 1`. -/
theorem call_root_writes (blocking : Bool) (N : Nat) (input : Nat → List Int) (hN : 1 ≤ N) :
    ∃ l, call blocking N 0 input fresh 0 = some l ∧
      l.writes = (List.range' 1 (2 ^ logp N - 1)).flatMap (fun k => layout k (input k)) := by
  have h0 : rank_me N 0 0 < 1 := by simp [rank_me]
  obtain ⟨w, hw, hargs⟩ := root_args N input hN
  refine ⟨closing blocking { w 0 with
    writes := (w 0).writes ++
      (List.range' 1 (2 ^ logp N - 1)).flatMap (fun k => layout k (input k)) }, ?_, ?_⟩
  · have hd : drain (w 0).args =
        some ((List.range' 1 (2 ^ logp N - 1)).flatMap (fun k => layout k (input k))) := by
      rw [hargs, drain_frames]
    unfold call finish finalize
    rw [hw, Option.some_bind, if_pos h0, hd]
    rfl
  · rw [closing_writes, afterRounds_writes N 0 input w hw 0 (by omega)]
    rfl

/-- With root 0, the stores of a first call at locality 0 leave every position below `L` and
every position from `2 ^ logp * L` on as it was. -/
theorem root_output_frame (blocking : Bool) (N L : Nat) (input : Nat → List Int)
    (out : Int → Int) (hN : 1 ≤ N) (hL : ∀ k, k < N → (input k).length = L) :
    ∃ l, call blocking N 0 input fresh 0 = some l ∧
      ∀ p : Int, (p < (L : Int) ∨ ((2 ^ logp N : Nat) : Int) * (L : Int) ≤ p) →
        store l.writes out p = out p := by
  obtain ⟨l, hl, hw⟩ := call_root_writes blocking N input hN
  have hK := two_pow_logp_le N hN
  have hpos := Nat.two_pow_pos (logp N)
  have hlen : ∀ k, 1 ≤ k → k ≤ 2 ^ logp N - 1 → (input k).length = L :=
    fun k _ hk => hL k (by omega)
  refine ⟨l, hl, ?_⟩
  intro p hp
  rw [hw]
  apply store_blocks_miss input L _ hlen out p
  rw [show 1 + (2 ^ logp N - 1) = 2 ^ logp N by omega]
  exact hp

/-! ## When the group hangs -/

/-- A call that returns everywhere leaves the member `mask` shifted by the number of rounds. -/
theorem returned_mask (blocking : Bool) (N root : Nat) (input : Nat → List Int) (w w2 : World)
    (h : returned blocking N root input w = some w2) (id : Nat) (hid : id < N) :
    (w2 id).mask = (w id).mask * 2 ^ logp N := by
  unfold returned at h
  rw [Option.bind_eq_some] at h
  obtain ⟨w', hw', hif⟩ := h
  split_ifs at hif with hall
  rw [List.all_eq_true] at hall
  have hs := hall id (List.mem_range.mpr hid)
  rw [Option.isSome_iff_exists] at hs
  obtain ⟨l, hl⟩ := hs
  rw [← Option.some.inj hif]
  simp only [if_pos hid, hl]
  unfold finish at hl
  rw [Option.map_eq_some'] at hl
  obtain ⟨l', hl', rfl⟩ := hl
  rw [closing_mask, (finalize_some N root id _ l' hl').1]
  exact afterRounds_mask N root input w w' hw' id hid

theorem replay_mask (blocking : Bool) (N root : Nat) (input : Nat → List Int) (id : Nat)
    (hid : id < N) : ∀ c w, replay blocking N root input c = some w →
      (w id).mask = 2 ^ (c * logp N) := by
  intro c
  induction c with
  | zero =>
    intro w h
    rw [replay] at h
    rw [← Option.some.inj h]
    simp [fresh, construct]
  | succ c ih =>
    intro w h
    rw [replay, Option.bind_eq_some] at h
    obtain ⟨w0, hw0, hret⟩ := h
    rw [returned_mask blocking N root input w0 w hret id hid, ih w0 hw0, ← pow_add]
    congr 1
    ring

/-! ## Counts with root 0 -/

/-- With root 0 a first call returns at every locality of the group after exactly
`floor(log2 N)` iterations and as many barrier waits, plus one under the blocking policy. -/
theorem counts_root_zero (blocking : Bool) (N id : Nat) (input : Nat → List Int)
    (hid : id < N) :
    ∃ l, call blocking N 0 input fresh id = some l ∧ l.iterations = Nat.log 2 N ∧
      l.barriers = Nat.log 2 N + (if blocking then 1 else 0) := by
  obtain ⟨w, hw⟩ := afterRounds_root_zero N input
  obtain ⟨l, hl, hit, -, -, -, hb⟩ := call_fields blocking N 0 input w hw id
  refine ⟨l, hl, ?_, ?_⟩
  · rw [hit, afterRounds_iterations N 0 input w hw id hid, logp_eq_log]
  · rw [hb, afterRounds_barriers N 0 input w hw id hid, logp_eq_log]

/-- C1, counterexample: with four localities, root 0 and inputs `[1]`, `[2]`, `[3]`, `[4]`, the
output of locality 0 after the call is `[0, 2, 3, 4]` when it started as zeros: position 0,
the block of the root itself, is never stored, so the output is not `[1, 2, 3, 4]`. -/
theorem completeness_counterexample :
    (List.range 4).map (fun i : Nat =>
        store (writesOf (call true 4 0 (fun id => [(id : Int) + 1]) fresh 0)) (fun _ => 0) (i : Int))
      = [0, 2, 3, 4] ∧
    (List.range 4).map (fun i : Nat =>
        store (writesOf (call true 4 0 (fun id => [(id : Int) + 1]) fresh 0)) (fun _ => 0) (i : Int))
      ≠ [1, 2, 3, 4] := by
  decide

/-- C1, amended: with root 0, any group size `N ≥ 1` and inputs of equal length `L`, a first
call returns at locality 0 and its output holds `input_k[i]` at position `k * L + i` for every
rank `1 ≤ k < 2 ^ floor(log2 N)` and every `i < L`. -/
theorem gather_blocks_root_zero (blocking : Bool) (N L : Nat) (input : Nat → List Int)
    (out : Int → Int) (hN : 1 ≤ N) (hL : ∀ k, k < N → (input k).length = L) :
    ∃ l, call blocking N 0 input fresh 0 = some l ∧
      ∀ k i : Nat, 1 ≤ k → k < 2 ^ Nat.log 2 N → i < L →
        some (store l.writes out ((k : Int) * (L : Int) + (i : Int))) = (input k)[i]? := by
  obtain ⟨l, hl, hw⟩ := call_root_writes blocking N input hN
  have hK := two_pow_logp_le N hN
  have hpos := Nat.two_pow_pos (logp N)
  rw [← logp_eq_log]
  have hlen : ∀ k, 1 ≤ k → k ≤ 2 ^ logp N - 1 → (input k).length = L :=
    fun k _ hk => hL k (by omega)
  refine ⟨l, hl, ?_⟩
  intro k i hk1 hk2 hi
  have hik : i < (input k).length := by rw [hL k (by omega)]; exact hi
  rw [hw, List.getElem?_eq_getElem hik]
  congr 1
  exact store_blocks_hit input L _ hlen out k i _ hk1 (by omega)
    (List.getElem?_eq_getElem hik)

/-- C1, amended, at four localities with one element each: rank 2, element 0. -/
theorem gather_blocks_root_zero_witness :
    ∃ l, call true 4 0 (fun id => [(id : Int) + 1]) fresh 0 = some l ∧
      some (store l.writes (fun _ => 0) (((2 : Nat) : Int) * ((1 : Nat) : Int) + ((0 : Nat) : Int))) =
        ((fun id : Nat => [(id : Int) + 1]) 2)[0]? := by
  obtain ⟨l, hl, h⟩ := gather_blocks_root_zero true 4 1 (fun id => [(id : Int) + 1])
    (fun _ => 0) (by decide) (fun _ _ => rfl)
  exact ⟨l, hl, h 2 0 (by decide) (by rw [← logp_eq_log]; decide) (by decide)⟩

/-- C2, counterexample: with three localities and root 0, the rounds are passed and afterwards
the vector of locality 0 holds one buffer, not `N - 1 = 2`: rank 2 never sends. -/
theorem root_accumulator_counterexample :
    (afterRounds 3 0 (fun id => [(id : Int)]) fresh).map (fun w => (w 0).args) =
      some [[1, 1, 1]] ∧
    ¬ ((afterRounds 3 0 (fun id => [(id : Int)]) fresh).map (fun w => (w 0).args.length) =
      some (3 - 1)) := by
  decide

/-- C2, amended: when the group size is a power of two `N = 2 ^ m` and root is 0, all rounds of
a first call are passed and afterwards the vector of locality 0 holds exactly `N - 1` buffers,
and for every non-root rank `1 ≤ j < N` exactly one of them carries `in_rank = j`; it is the
buffer framed from the input of `j`. -/
theorem root_accumulator_power_of_two (m : Nat) (input : Nat → List Int) :
    ∃ w, afterRounds (2 ^ m) 0 input fresh = some w ∧
      (w 0).args.length = 2 ^ m - 1 ∧
      ∀ j : Nat, 1 ≤ j → j < 2 ^ m →
        ((w 0).args.filter (fun e => decide (e.head? = some (j : Int)))).length = 1 ∧
        frame j (input j) ∈ (w 0).args := by
  have hpos := Nat.two_pow_pos m
  obtain ⟨w, hw, hargs⟩ := root_args (2 ^ m) input hpos
  rw [logp_two_pow] at hargs
  refine ⟨w, hw, ?_, ?_⟩
  · rw [hargs]; simp
  · intro j h1 h2
    rw [hargs]
    refine ⟨?_, ?_⟩
    · rw [count_in_rank, if_pos (by omega)]
    · rw [List.mem_map]
      exact ⟨j, List.mem_range'_1.mpr (by omega), rfl⟩

/-- C2, amended, at four localities and rank 3. -/
theorem root_accumulator_power_of_two_witness :
    ∃ w, afterRounds (2 ^ 2) 0 (fun id => [(id : Int)]) fresh = some w ∧
      (w 0).args.length = 2 ^ 2 - 1 ∧
      ((w 0).args.filter (fun e => decide (e.head? = some ((3 : Nat) : Int)))).length = 1 ∧
      frame 3 ((fun id : Nat => [(id : Int)]) 3) ∈ (w 0).args := by
  obtain ⟨w, hw, hlen, h⟩ := root_accumulator_power_of_two 2 (fun id => [(id : Int)])
  exact ⟨w, hw, hlen, h 3 (by decide) (by decide)⟩

/-- C4, the code at the failing input: with five localities and root 1, `logp` is 2 but round 0
is never passed: locality 4 (rotated rank 0) enters the wait loop, the messages of the round
go to localities 1 and 3, its flag stays clear, and no call returns. -/
theorem round_count_hang_eval :
    logp 5 = 2 ∧ rank_me 5 1 4 = 0 ∧
    (outbox 5 1 0 (cached 5 1 (fun id => [(id : Int)]) fresh)).map Message.parent = [1, 3] ∧
    (landed 5 1 0 (cached 5 1 (fun id => [(id : Int)]) fresh) 4).waits = [0] ∧
    (landed 5 1 0 (cached 5 1 (fun id => [(id : Int)]) fresh) 4).flag = 0 ∧
    (receive 5 1 4 (landed 5 1 0 (cached 5 1 (fun id => [(id : Int)]) fresh) 4)).isSome = false ∧
    (round 5 1 0 (cached 5 1 (fun id => [(id : Int)]) fresh)).isSome = false ∧
    (afterRounds 5 1 (fun id => [(id : Int)]) fresh).isSome = false ∧
    (List.range 5).map (fun id => (call true 5 1 (fun id => [(id : Int)]) fresh id).isSome) =
      [false, false, false, false, false] := by
  decide

/-- C5, the code at the failing input: with eight localities and root 3, the locality whose id
is the root computes rotated rank 6, and rotated rank 0 is computed by locality 5. -/
theorem root_rotated_rank_eval :
    rank_me 8 3 3 = 6 ∧ rank_me 8 3 5 = 0 ∧ (5 : Nat) ≠ 3 := by
  decide

/-- C6, counterexample: with four localities and root 0, locality 3 issues a send in round 0
(to locality 2) and again in round 1 (to locality 1). -/
theorem send_once_counterexample :
    (call true 4 0 (fun id => [(id : Int)]) fresh 3).map Locality.sends = some [(0, 2), (1, 1)] ∧
    ¬ (((call true 4 0 (fun id => [(id : Int)]) fresh 3).map
        (fun l => l.sends.length)) = some 0 ∨
       ((call true 4 0 (fun id => [(id : Int)]) fresh 3).map
        (fun l => l.sends.length)) = some 1) := by
  decide

/-- C6, amended: with root 0, in a first call a locality of the group (its rotated rank is its
id) returns having sent in round `r` exactly when `r < floor(log2 N)` and bit `r` of its rank
is set, each time to `(rank_me & ~(1 << r)) % N`; so it sends once per such set bit, and at
most once when its rank has at most one of them. -/
theorem sends_per_set_bit (blocking : Bool) (N id : Nat) (input : Nat → List Int)
    (hid : id < N) :
    rank_me N 0 id = id ∧
    ∃ l, call blocking N 0 input fresh id = some l ∧
      l.sends =
        ((List.range (Nat.log 2 N)).filter (fun r => (rank_me N 0 id).testBit r)).map
          (fun r => (r, parent N 0 (rank_me N 0 id) (1 <<< r))) := by
  refine ⟨rank_me_root_zero N id hid, ?_⟩
  obtain ⟨w, hw⟩ := afterRounds_root_zero N input
  obtain ⟨l, hl, -, hs, -, -, -⟩ := call_fields blocking N 0 input w hw id
  refine ⟨l, hl, ?_⟩
  rw [hs, afterRounds_sends N 0 input w hw id hid, logp_eq_log]

/-- C6, amended, at four localities, locality 3. -/
theorem sends_per_set_bit_witness :
    rank_me 4 0 3 = 3 ∧
    ∃ l, call true 4 0 (fun id => [(id : Int)]) fresh 3 = some l ∧
      l.sends =
        ((List.range (Nat.log 2 4)).filter (fun r => (rank_me 4 0 3).testBit r)).map
          (fun r => (r, parent 4 0 (rank_me 4 0 3) (1 <<< r))) :=
  sends_per_set_bit true 4 3 (fun id => [(id : Int)]) (by decide)

/-- C7, the code at the failing input: with five localities and root 1, locality 3 has rotated
rank 4 and is idle in round 0 (`mask & 4 == 0` and `4 | mask` is not below 5); yet locality 2
sends to it in that round, and once the deliveries of the round have landed its vector has
grown from one buffer to two. -/
theorem idle_targeted_eval :
    rank_me 5 1 3 = 4 ∧
    (cached 5 1 (fun id => [(id : Int)]) fresh 3).mask &&& 4 = 0 ∧
    ¬ (4 ||| (cached 5 1 (fun id => [(id : Int)]) fresh 3).mask < 5) ∧
    (exchange 5 1 3 0 (cached 5 1 (fun id => [(id : Int)]) fresh 3)).2 = none ∧
    (exchange 5 1 2 0 (cached 5 1 (fun id => [(id : Int)]) fresh 2)).2 = some ⟨3, [[3, 1, 2]]⟩ ∧
    (cached 5 1 (fun id => [(id : Int)]) fresh 3).args = [[4, 1, 3]] ∧
    (landed 5 1 0 (cached 5 1 (fun id => [(id : Int)]) fresh) 3).args =
      [[4, 1, 3], [3, 1, 2]] := by
  decide

/-- C8: a buffer framed from rotated rank `k` and input `e_0 .. e_{L-1}` starts with `k` and
`L`, and draining it stores `e_i` at position `k * L + i` for `i = 0, ..., L - 1`, in that
order, and stores nothing else. -/
theorem envelope_round_trip (k : Nat) (es : List Int) :
    (frame k es).head? = some (k : Int) ∧
    (frame k es).tail.head? = some (es.length : Int) ∧
    (frame k es).drop 2 = es ∧
    decode (frame k es) =
      some (es.enum.map (fun q => ((k : Int) * (es.length : Int) + (q.1 : Int), q.2))) :=
  ⟨rfl, rfl, rfl, decode_frame_eq k es⟩

/-- C9, the code at the failing input: with five localities and root 1, under either blocking
policy no locality completes a barrier wait of the call's schedule: locality 4 never leaves the
wait loop of round 0 and so never reaches the barrier the four others are held at; no call
returns, where `floor(log2 5) + 1 = 3` waits (blocking) or 2 (non-blocking) are claimed. -/
theorem barrier_hang_eval :
    (receive 5 1 4 (landed 5 1 0 (cached 5 1 (fun _ => [1]) fresh) 4)).isSome = false ∧
    (List.range 5).map (fun id => (landed 5 1 0 (cached 5 1 (fun _ => [1]) fresh) id).barriers) =
      [0, 0, 0, 0, 0] ∧
    (round 5 1 0 (cached 5 1 (fun _ => [1]) fresh)).isSome = false ∧
    (List.range 5).map (fun id => (call true 5 1 (fun _ => [1]) fresh id).isSome) =
      [false, false, false, false, false] ∧
    (List.range 5).map (fun id => (call false 5 1 (fun _ => [1]) fresh id).isSome) =
      [false, false, false, false, false] := by
  decide

/-- C10: with root 0 and `K = 2 ^ floor(log2 N)`, all rounds of a first call are passed and
afterwards the vector of locality 0 is the list of the buffers framed by ranks `1, ..., K - 1`,
one each; hence for every `j` the number of buffers carrying `in_rank = j` is 1 when
`1 ≤ j < K` and 0 otherwise. -/
theorem exact_reach_root_zero (N : Nat) (input : Nat → List Int) (hN : 1 ≤ N) :
    ∃ w, afterRounds N 0 input fresh = some w ∧
      (w 0).args = (List.range' 1 (2 ^ Nat.log 2 N - 1)).map (fun k => frame k (input k)) ∧
      ∀ j : Nat,
        ((w 0).args.filter (fun e => decide (e.head? = some (j : Int)))).length =
          if 1 ≤ j ∧ j < 2 ^ Nat.log 2 N then 1 else 0 := by
  have hpos := Nat.two_pow_pos (Nat.log 2 N)
  obtain ⟨w, hw, hargs⟩ := root_args N input hN
  rw [logp_eq_log] at hargs
  refine ⟨w, hw, hargs, ?_⟩
  intro j
  rw [hargs, count_in_rank, show 1 + (2 ^ Nat.log 2 N - 1) = 2 ^ Nat.log 2 N by omega]

/-- C10 at three localities: locality 0 ends with the buffer of rank 1 only. -/
theorem exact_reach_root_zero_witness :
    ∃ w, afterRounds 3 0 (fun id => [(id : Int)]) fresh = some w ∧
      (w 0).args =
        (List.range' 1 (2 ^ Nat.log 2 3 - 1)).map
          (fun k => frame k ((fun id : Nat => [(id : Int)]) k)) ∧
      ∀ j : Nat,
        ((w 0).args.filter (fun e => decide (e.head? = some (j : Int)))).length =
          if 1 ≤ j ∧ j < 2 ^ Nat.log 2 3 then 1 else 0 :=
  exact_reach_root_zero 3 (fun id => [(id : Int)]) (by decide)

/-! ## The claims, continued -/

/-- C11, the code at the failing input: with eight localities and root 3, locality 6 has rotated
rank 1 and sends in round 0; its parent is locality 3, whose own rotated rank is 6, not
`1 & ~1 = 0`. -/
theorem rotation_round_trip_eval :
    rank_me 8 3 6 = 1 ∧ 1 <<< 0 &&& rank_me 8 3 6 ≠ 0 ∧
    parent 8 3 (rank_me 8 3 6) (1 <<< 0) = 3 ∧
    andNot (rank_me 8 3 6) (1 <<< 0) = 0 ∧
    rank_me 8 3 (parent 8 3 (rank_me 8 3 6) (1 <<< 0)) = 6 := by
  decide

/-- C12: in round `r`, for any group size and root, two distinct senders (rotated ranks below
`N` with `(1 << r) & rank != 0`) compute different parents, and so do two distinct sending
localities of the group. -/
theorem single_writer (N root r : Nat) :
    (∀ x y : Nat, x < N → y < N → 1 <<< r &&& x ≠ 0 → 1 <<< r &&& y ≠ 0 → x ≠ y →
      parent N root x (1 <<< r) ≠ parent N root y (1 <<< r)) ∧
    (∀ id1 id2 : Nat, id1 < N → id2 < N →
      1 <<< r &&& rank_me N root id1 ≠ 0 → 1 <<< r &&& rank_me N root id2 ≠ 0 → id1 ≠ id2 →
      parent N root (rank_me N root id1) (1 <<< r) ≠
        parent N root (rank_me N root id2) (1 <<< r)) := by
  have key : ∀ x y : Nat, x < N → y < N → 1 <<< r &&& x ≠ 0 → 1 <<< r &&& y ≠ 0 →
      parent N root x (1 <<< r) = parent N root y (1 <<< r) → x = y := by
    intro x y hx hy hsx hsy hp
    rw [Nat.shiftLeft_eq, one_mul] at hsx hsy hp
    have hbx := (two_pow_and_ne_zero x r).mp hsx
    have hby := (two_pow_and_ne_zero y r).mp hsy
    unfold parent at hp
    rw [andNot_two_pow x r hbx, andNot_two_pow y r hby] at hp
    have hgx := Nat.testBit_implies_ge hbx
    have hgy := Nat.testBit_implies_ge hby
    have hlx : x - 2 ^ r < N := lt_of_le_of_lt (Nat.sub_le x (2 ^ r)) hx
    have hly : y - 2 ^ r < N := lt_of_le_of_lt (Nat.sub_le y (2 ^ r)) hy
    have heq := add_mod_cancel_lt N root _ _ hlx hly hp
    generalize 2 ^ r = P at hgx hgy heq
    omega
  refine ⟨fun x y hx hy hsx hsy hne hp => hne (key x y hx hy hsx hsy hp), ?_⟩
  intro id1 id2 h1 h2 hs1 hs2 hne hp
  have hN : 0 < N := by omega
  have hr := key _ _ (rank_me_lt N root id1 hN) (rank_me_lt N root id2 hN) hs1 hs2 hp
  exact hne (add_mod_cancel_lt N root id1 id2 h1 h2 hr)

/-- C12 at eight localities, root 3, round 1: rotated ranks 2 and 3, held by localities 7 and
0, both send, and to different parents. -/
theorem single_writer_witness :
    parent 8 3 2 (1 <<< 1) ≠ parent 8 3 3 (1 <<< 1) ∧
    parent 8 3 (rank_me 8 3 7) (1 <<< 1) ≠ parent 8 3 (rank_me 8 3 0) (1 <<< 1) :=
  ⟨(single_writer 8 3 1).1 2 3 (by decide) (by decide) (by decide) (by decide) (by decide),
    (single_writer 8 3 1).2 7 0 (by decide) (by decide) (by decide) (by decide) (by decide)⟩

/-- C13, the code at the failing input: with two localities and root 1, before round 0 the
root (locality 1, rotated rank 0) holds one buffer, its own, while locality 0 (rotated rank 1,
equal to root) skipped the caching and holds none. -/
theorem framing_guard_eval :
    rank_me 2 1 1 = 0 ∧ rank_me 2 1 0 = 1 ∧
    (cached 2 1 (fun id => [(id : Int) + 7]) fresh 1).args = [[0, 1, 8]] ∧
    (cached 2 1 (fun id => [(id : Int) + 7]) fresh 0).args = [] := by
  decide

/-- C14, counterexample: with two localities and root 0, the first call returns everywhere and
a second call on the same objects enters round 0 with mask 2, not `1 << 0`; locality 1, the
sender of the first call, then sees `mask & rank_me == 0` and sends nothing. -/
theorem mask_second_call_counterexample :
    ((replay true 2 0 (fun id => [(id : Int)]) 1).bind
      (fun w0 => loop 2 0 0 (cached 2 0 (fun id => [(id : Int)]) w0))).map
        (fun w => (w 1).mask) = some 2 ∧
    ¬ (((replay true 2 0 (fun id => [(id : Int)]) 1).bind
      (fun w0 => loop 2 0 0 (cached 2 0 (fun id => [(id : Int)]) w0))).map
        (fun w => (w 1).mask) = some (1 <<< 0)) ∧
    (replay true 2 0 (fun id => [(id : Int)]) 1).map
      (fun w0 => (exchange 2 0 1 0 (cached 2 0 (fun id => [(id : Int)]) w0 1)).2) =
        some none := by
  decide

/-- C14, amended: the member `mask` is set once by the constructor and never reset, so when a
locality of the group reaches round `r` of call number `c` (counted from 0) on the same
object, it tests its role against `1 << (c * floor(log2 N) + r)`, as long as that shift stays
inside 64 bits; the first call (`c = 0`) uses `1 << r`, and with root 0 every round of the
first call is reached. -/
theorem mask_per_round (blocking : Bool) (N root : Nat) (input : Nat → List Int) (c r id : Nat)
    (hid : id < N) (_hr : r < Nat.log 2 N) (_h64 : c * Nat.log 2 N + r < 63) :
    (∀ w0 w : World, replay blocking N root input c = some w0 →
      loop N root r (cached N root input w0) = some w →
      (w id).mask = 1 <<< (c * Nat.log 2 N + r)) ∧
    (root = 0 → ∃ w, loop N root r (cached N root input fresh) = some w ∧
      (w id).mask = 1 <<< r) := by
  constructor
  · intro w0 w h0 h
    rw [loop_mask N root _ id hid r w h]
    have hc : (cached N root input w0 id).mask = (w0 id).mask := by
      simp [cached, hid, cache_mask]
    rw [hc, replay_mask blocking N root input id hid c w0 h0, Nat.shiftLeft_eq, one_mul,
      ← pow_add, logp_eq_log]
  · intro hz
    subst hz
    obtain ⟨w, hw, -, -⟩ := loop_root_zero N input r
    refine ⟨w, hw, ?_⟩
    rw [loop_mask N 0 _ id hid r w hw, cached_mask, Nat.shiftLeft_eq]

/-- C14, amended, at four localities: round 1 of the first call and of the second call are
reached, with masks `1 << 1` and `1 << 3`. -/
theorem mask_per_round_witness :
    (∃ w0 w, replay true 4 0 (fun _ => [1]) 0 = some w0 ∧
      loop 4 0 1 (cached 4 0 (fun _ => [1]) w0) = some w ∧
      (w 3).mask = 1 <<< (0 * Nat.log 2 4 + 1)) ∧
    (∃ w0 w, replay true 4 0 (fun _ => [1]) 1 = some w0 ∧
      loop 4 0 1 (cached 4 0 (fun _ => [1]) w0) = some w ∧
      (w 3).mask = 1 <<< (1 * Nat.log 2 4 + 1)) := by
  have r0 : ((replay true 4 0 (fun _ => [1]) 0).bind
      (fun w0 => loop 4 0 1 (cached 4 0 (fun _ => [1]) w0))).isSome = true := by decide
  have r1 : ((replay true 4 0 (fun _ => [1]) 1).bind
      (fun w0 => loop 4 0 1 (cached 4 0 (fun _ => [1]) w0))).isSome = true := by decide
  rw [Option.isSome_iff_exists] at r0 r1
  obtain ⟨w, hw⟩ := r0
  obtain ⟨w', hw'⟩ := r1
  rw [Option.bind_eq_some] at hw hw'
  obtain ⟨w0, h0, h⟩ := hw
  obtain ⟨w0', h0', h'⟩ := hw'
  exact ⟨⟨w0, w, h0, h, (mask_per_round true 4 0 (fun _ => [1]) 0 1 3 (by decide)
      (by rw [← logp_eq_log]; decide) (by rw [← logp_eq_log]; decide)).1 w0 w h0 h⟩,
    ⟨w0', w', h0', h', (mask_per_round true 4 0 (fun _ => [1]) 1 1 3 (by decide)
      (by rw [← logp_eq_log]; decide) (by rw [← logp_eq_log]; decide)).1 w0' w' h0' h'⟩⟩

/-- C15: with root 0, in a first call all rounds are passed, and for every round
`r < floor(log2 N)` and every locality `x` of the group (its rotated rank is `x` itself): `x`
enters the receive wait of round `r` exactly when bit `r` of `x` is clear and
`x | (1 << r) < N`; in that case the localities that send to `x` in round `r` are exactly the
one locality `x | (1 << r)`, which is in the group; and whenever a locality of the group sends
to `p` in round `r`, `p` is in the group and waits in round `r`. -/
theorem receiver_has_sender (N : Nat) (input : Nat → List Int) (r x : Nat)
    (hr : r < Nat.log 2 N) (hx : x < N) :
    ∃ w, afterRounds N 0 input fresh = some w ∧
      rank_me N 0 x = x ∧
      (r ∈ (w x).waits ↔ x.testBit r = false ∧ x ||| 1 <<< r < N) ∧
      (r ∈ (w x).waits →
        x ||| 1 <<< r < N ∧
        ∀ s : Nat, s < N → ((r, x) ∈ (w s).sends ↔ s = x ||| 1 <<< r)) ∧
      (∀ p : Nat, (r, p) ∈ (w x).sends → p < N ∧ r ∈ (w p).waits) := by
  obtain ⟨w, hw⟩ := afterRounds_root_zero N input
  have hr' : r < logp N := by rw [logp_eq_log]; exact hr
  have hrm := rank_me_root_zero N x hx
  have hwt : r ∈ (w x).waits ↔ x.testBit r = false ∧ x ||| 1 <<< r < N := by
    rw [mem_waits N 0 input w hw x hx r, hrm]
    exact ⟨fun h => h.2, fun h => ⟨hr', h⟩⟩
  refine ⟨w, hw, hrm, hwt, ?_, ?_⟩
  · intro hmem
    obtain ⟨hb, hlt⟩ := hwt.mp hmem
    refine ⟨hlt, ?_⟩
    intro s hs
    rw [mem_sends N 0 input w hw s hs r x, rank_me_root_zero N s hs, Nat.shiftLeft_eq, one_mul,
      or_two_pow x r hb]
    constructor
    · rintro ⟨-, hsb, hp⟩
      have hpar := parent_root_zero N s r hs hsb
      rw [Nat.shiftLeft_eq, one_mul] at hpar
      rw [hpar] at hp
      have hge := Nat.testBit_implies_ge hsb
      omega
    · intro hse
      have hsb : s.testBit r = true := by
        rw [hse, ← or_two_pow x r hb, Nat.testBit_or, Nat.testBit_two_pow_self, Bool.or_true]
      have hpar := parent_root_zero N s r hs hsb
      rw [Nat.shiftLeft_eq, one_mul] at hpar
      refine ⟨hr', hsb, ?_⟩
      rw [hpar, hse, Nat.add_sub_cancel]
  · intro p hp
    rw [mem_sends N 0 input w hw x hx r p, hrm] at hp
    obtain ⟨-, hxb, hpe⟩ := hp
    have hpar := parent_root_zero N x r hx hxb
    have hge := Nat.testBit_implies_ge hxb
    have hpx : p = x - 2 ^ r := by rw [hpe, hpar]
    have hpN : p < N := by rw [hpx]; exact lt_of_le_of_lt (Nat.sub_le x (2 ^ r)) hx
    have hpb : p.testBit r = false := by
      rw [hpx, ← andNot_two_pow x r hxb, andNot_testBit, Nat.testBit_two_pow_self]
      simp
    refine ⟨hpN, ?_⟩
    rw [mem_waits N 0 input w hw p hpN r, rank_me_root_zero N p hpN, Nat.shiftLeft_eq, one_mul,
      or_two_pow p r hpb]
    refine ⟨hr', hpb, ?_⟩
    rw [hpx, Nat.sub_add_cancel hge]
    exact hx

/-- C15 at six localities, round 1: locality 1 waits and its only sender is locality 3;
locality 4 does not wait (`4 | 2 = 6` is outside the group). -/
theorem receiver_has_sender_witness :
    (∃ w, afterRounds 6 0 (fun _ => [1]) fresh = some w ∧ 1 ∈ (w 1).waits ∧
      ((1, 1) ∈ (w 3).sends ↔ 3 = 1 ||| 1 <<< 1)) ∧
    (∃ w, afterRounds 6 0 (fun _ => [1]) fresh = some w ∧
      (1 ∈ (w 4).waits ↔ (4 : Nat).testBit 1 = false ∧ 4 ||| 1 <<< 1 < 6)) := by
  obtain ⟨w, hw, -, h1, h2, -⟩ :=
    receiver_has_sender 6 (fun _ => [1]) 1 1 (by rw [← logp_eq_log]; decide) (by decide)
  obtain ⟨w', hw', -, h4, -, -⟩ :=
    receiver_has_sender 6 (fun _ => [1]) 1 4 (by rw [← logp_eq_log]; decide) (by decide)
  have hwt : 1 ∈ (w 1).waits := h1.mpr (by decide)
  exact ⟨⟨w, hw, hwt, (h2 hwt).2 3 (by decide)⟩, ⟨w', hw', h4⟩⟩

/-- C16: for every group size, root and inputs of equal length `L`, every output index stored
by a first call at a locality of the group satisfies `0 ≤ out_pos < N * L`, whether or not the
call returns; with root 0 it does return. -/
theorem writes_in_bounds (blocking : Bool) (N root L : Nat) (input : Nat → List Int) (id : Nat)
    (hid : id < N) (hL : ∀ k, k < N → (input k).length = L) :
    (∀ pv ∈ writesOf (call blocking N root input fresh id),
      0 ≤ pv.1 ∧ pv.1 < (N : Int) * (L : Int)) ∧
    (root = 0 → ∃ l, call blocking N root input fresh id = some l ∧
      ∀ pv ∈ l.writes, 0 ≤ pv.1 ∧ pv.1 < (N : Int) * (L : Int)) := by
  have hN : 0 < N := by omega
  have key : ∀ l, call blocking N root input fresh id = some l →
      ∀ pv ∈ l.writes, 0 ≤ pv.1 ∧ pv.1 < (N : Int) * (L : Int) := by
    intro l hl pv hpv
    unfold call at hl
    rw [Option.bind_eq_some] at hl
    obtain ⟨w, hw, hfin⟩ := hl
    unfold finish at hfin
    rw [Option.map_eq_some'] at hfin
    obtain ⟨l', hl', rfl⟩ := hfin
    rw [closing_writes] at hpv
    unfold finalize at hl'
    split_ifs at hl' with h0
    · rw [Option.map_eq_some'] at hl'
      obtain ⟨ws, hws, rfl⟩ := hl'
      simp only [afterRounds_writes N root input w hw id hid, List.nil_append] at hpv
      obtain ⟨e, he, ws', hdec, hmem⟩ := mem_drain _ ws hws pv hpv
      obtain ⟨s, hs, rfl⟩ := sourced_afterRounds N root input w hw id e he
      rw [decode_frame] at hdec
      cases hdec
      have hb := layout_bound (rank_me N root s) N (input s) (rank_me_lt N root s hN) pv hmem
      rw [hL s hs] at hb
      exact hb
    · cases hl'
      rw [afterRounds_writes N root input w hw id hid] at hpv
      cases hpv
  constructor
  · intro pv hpv
    cases hc : call blocking N root input fresh id with
    | none => rw [hc] at hpv; cases hpv
    | some l => rw [hc] at hpv; exact key l hc pv hpv
  · intro h0
    subst h0
    obtain ⟨w, hw⟩ := afterRounds_root_zero N input
    obtain ⟨l, hl, -⟩ := call_fields blocking N 0 input w hw id
    exact ⟨l, hl, key l hl⟩

/-- C16 at four localities with two elements each, at the root. -/
theorem writes_in_bounds_witness :
    ∃ l, call true 4 0 (fun id => [(id : Int), 5]) fresh 0 = some l ∧
      ∀ pv ∈ l.writes, 0 ≤ pv.1 ∧ pv.1 < ((4 : Nat) : Int) * ((2 : Nat) : Int) :=
  (writes_in_bounds true 4 0 2 (fun id => [(id : Int), 5]) 0 (by decide) (fun _ _ => rfl)).2 rfl

end Gather
